import Mathlib

/-!
# BigIntCpp: a shallow embedding of `BigInt.h` / `BigInt.cpp`

A `BigInt` is a little-endian sequence of base-10000 limbs plus a sign flag.
The C++ `int` and `long long` values are embedded as `Int`; `/` and `%` are the
truncating `Int.tdiv` and `Int.tmod`.  Where a machine operation can leave its
range on inputs the program can receive (the `int` accumulators of
`karatsubaMultiply`, the negation in `BigInt(long long)`, the 64-bit
accumulator and the `int` quotient limb of `operator/`), the result is wrapped
to the two's-complement range of the type; the limb loops of `operator+` and
`operator-` stay below `2 * BASE` in absolute value on limbs in `[0, BASE)` and
are kept exact.  Strings are lists of characters.

Loops and recursions that are not structural carry an explicit bound on the
number of iterations or on the call depth; the theorems state that the bound
used is large enough.  The mutually recursive `operator+` and `operator-`
return `none` when the depth bound is reached.
-/

namespace BigIntCpp

/-! ## Data model -/

/-- Radix of one limb, `BigInt::BASE`. -/
def BASE : Int := 10000

/-- Decimal digits per limb, `BigInt::WIDTH`. -/
def WIDTH : Nat := 4

/-- The class `BigInt`: `digits` is least significant limb first. -/
structure BigInt where
  digits : List Int
  negative : Bool
deriving DecidableEq

/-- Two's-complement wrap of an exact integer into the range of a 32-bit `int`. -/
def wrap32 (x : Int) : Int := (x + 2147483648) % 4294967296 - 2147483648

/-- Two's-complement wrap of an exact integer into the range of a 64-bit `long long`. -/
def wrap64 (x : Int) : Int :=
  (x + 9223372036854775808) % 18446744073709551616 - 9223372036854775808

/-- Every limb lies in `[0, BASE)`. -/
def limbsOk (ds : List Int) : Prop := ∀ d ∈ ds, 0 ≤ d ∧ d < BASE

/-- The four data-model invariants: non-empty limbs, limbs in range, no most
significant zero limb unless the number is the single limb `0`, and zero is
never flagged negative. -/
def Valid (x : BigInt) : Prop :=
  x.digits ≠ [] ∧ limbsOk x.digits ∧
  (x.digits.getLast? = some 0 → x.digits = [0]) ∧
  (x.digits = [0] → x.negative = false)

instance limbsOk_decidable (ds : List Int) : Decidable (limbsOk ds) := by
  unfold limbsOk; infer_instance

instance valid_decidable (x : BigInt) : Decidable (Valid x) := by
  unfold Valid; infer_instance

/-- Magnitude denoted by a little-endian limb sequence. -/
def mag : List Int → Int
  | [] => 0
  | d :: ds => d + BASE * mag ds

/-- Integer denoted by a `BigInt`: the sign applied to the magnitude. -/
def value (x : BigInt) : Int :=
  if x.negative then - mag x.digits else mag x.digits

/-! ## Normalisation -/

/-- The `while` loop of `removeLeadingZeros`, on the limbs listed most
significant first: pop the leading limb while it is `0` and more than one limb
remains. -/
def popZeros : List Int → List Int
  | x :: y :: ys => if x = 0 then popZeros (y :: ys) else x :: y :: ys
  | l => l

/-- The method `BigInt::removeLeadingZeros`. -/
def removeLeadingZeros (x : BigInt) : BigInt :=
  let ds := (popZeros x.digits.reverse).reverse
  { digits := ds, negative := if ds = [0] then false else x.negative }

/-! ## Construction -/

/-- The `do ... while (num > 0)` loop of `BigInt(long long)`.  The first
argument bounds the number of iterations. -/
def fromLoop : Nat → Int → List Int
  | 0, _ => []
  | fuel + 1, num =>
    num.tmod BASE ::
      (if 0 < num.tdiv BASE then fromLoop fuel (num.tdiv BASE) else [])

/-- The constructor `BigInt(long long num)`.  `num = -num` is a 64-bit
negation, wrapped to the range of `long long`. -/
def fromLongLong (num : Int) : BigInt :=
  let n := if num < 0 then wrap64 (- num) else num
  { digits := fromLoop (n.natAbs + 1) n, negative := decide (num < 0) }

/-- The default-constructed `BigInt result;` used inside the operators. -/
def zero : BigInt := fromLongLong 0

/-- The C `isspace` test used by `std::stoi` to skip leading blanks. -/
def isSpace (c : Char) : Bool :=
  c = ' ' || (9 ≤ c.toNat && c.toNat ≤ 13)

/-- An ASCII decimal digit. -/
def isDigit (c : Char) : Bool := 48 ≤ c.toNat && c.toNat ≤ 57

/-- Decimal value of a run of digit characters, most significant first. -/
def decVal (s : List Char) : Nat :=
  s.foldl (fun acc c => 10 * acc + (c.toNat - 48)) 0

/-- The optional sign that `std::stoi` reads before the digits: the factor
it stands for and the characters after it. -/
def stoiSign : List Char → Int × List Char
  | '-' :: r => (-1, r)
  | '+' :: r => (1, r)
  | r => (1, r)

/-- The library call `std::stoi` on a piece of at most `WIDTH` characters:
skip blanks, read an optional sign, convert the longest run of digits;
`none` stands for the `std::invalid_argument` exception. -/
def stoi (s : List Char) : Option Int :=
  let signed := stoiSign (s.dropWhile isSpace)
  let run := signed.2.takeWhile isDigit
  if run = [] then none else some (signed.1 * (decVal run : Int))

/-- The `for (int i = len; i > start; i -= WIDTH)` loop of `BigInt(string)`.
`i` is kept as a natural number: `i - WIDTH` below zero is cut to `0`, which
`max(start, ·)` and the loop test `i > start` treat alike.  The first argument
bounds the number of iterations; `none` is a thrown exception. -/
def parseLoop (str : List Char) (start : Nat) : Nat → Nat → Option (List Int)
  | 0, _ => none
  | fuel + 1, i =>
    if start < i then
      let stop := i
      let begin := max start (i - WIDTH)
      match stoi ((str.drop begin).take (stop - begin)) with
      | none => none
      | some d =>
        match parseLoop str start fuel (i - WIDTH) with
        | none => none
        | some rest => some (d :: rest)
    else some []

/-- The constructor `BigInt(const std::string&)`.  `str[0]` of the empty
string is the terminating NUL character. -/
def fromString (str : List Char) : Option BigInt :=
  let len := str.length
  let isNeg : Bool := str.head? = some '-'
  let start := if isNeg then 1 else 0
  match parseLoop str start (len + 1) len with
  | none => none
  | some ds => some (removeLeadingZeros { digits := ds, negative := isNeg })

/-! ## Rendering -/

/-- Digit-by-digit conversion behind `natChars`: prepend the character of
`n % 10`, continue with `n / 10` while it is not zero.  The first argument
bounds the number of iterations. -/
def natCharsAux : Nat → Nat → List Char → List Char
  | 0, _, acc => acc
  | fuel + 1, n, acc =>
    if n / 10 = 0 then Char.ofNat (48 + n % 10) :: acc
    else natCharsAux fuel (n / 10) (Char.ofNat (48 + n % 10) :: acc)

/-- Decimal characters of a natural number, as `operator<<(int)` prints them. -/
def natChars (n : Nat) : List Char := natCharsAux (n + 1) n []

/-- Decimal characters of an `int`, with a minus sign when negative. -/
def intChars (v : Int) : List Char :=
  if v < 0 then '-' :: natChars v.natAbs else natChars v.natAbs

/-- The effect of `std::setw(w) << std::setfill('0')` on the next item. -/
def padLeft (w : Nat) (s : List Char) : List Char :=
  List.replicate (w - s.length) '0' ++ s

/-- The stream output `operator<<`: `none` when `digits` is empty, where
`digits.back()` has no defined value. -/
def render (x : BigInt) : Option (List Char) :=
  match x.digits.reverse with
  | [] => none
  | top :: rest =>
    let sign : List Char :=
      if x.negative && !(decide (x.digits = [0])) then ['-'] else []
    some (sign ++ intChars top ++ (rest.map (fun d => padLeft WIDTH (intChars d))).flatten)

/-! ## Comparison -/

/-- The descending index loop shared by `operator<` and `absLess`, on two
limb lists given most significant first: the first mismatch decides. -/
def firstDiffLess : List Int → List Int → Bool
  | x :: xs, y :: ys => if x ≠ y then decide (x < y) else firstDiffLess xs ys
  | _, _ => false

/-- The static helper `BigInt::absLess`. -/
def absLess (a b : BigInt) : Bool :=
  if a.digits.length ≠ b.digits.length then
    decide (a.digits.length < b.digits.length)
  else firstDiffLess a.digits.reverse b.digits.reverse

/-- The public `BigInt::operator<`. -/
def lt (a b : BigInt) : Bool :=
  if a.digits.length ≠ b.digits.length then
    decide (a.digits.length < b.digits.length)
  else firstDiffLess a.digits.reverse b.digits.reverse

/-! ## Negation, addition, subtraction -/

/-- Unary `BigInt::operator-()`. -/
def neg (x : BigInt) : BigInt :=
  if ¬ (x.digits = [0]) then { x with negative := !x.negative } else x

/-- Iterations of a carry loop that run on the carry alone
(`while (carry)` in `operator*`, and the `|| carry` tail of the loop in
`operator+`): push `carry % BASE`, continue with `carry / BASE`.  The first
argument bounds the number of iterations. -/
def carryTail : Nat → Int → List Int
  | 0, _ => []
  | fuel + 1, carry =>
    if carry ≠ 0 then carry.tmod BASE :: carryTail fuel (carry.tdiv BASE) else []

/-- The loop of `operator+` once the index has passed the end of one
operand: only the limbs of the other one are added to the carry, and when
these are used up too the loop runs on while a carry is pending. -/
def addLoopRest : List Int → Int → List Int
  | y :: ys, carry =>
    let sum := carry + y
    sum.tmod BASE :: addLoopRest ys (sum.tdiv BASE)
  | [], carry => carryTail carry.natAbs carry

/-- The loop of `operator+`, case 1: limb-wise sum with carry while either
operand has limbs left or a carry is pending. -/
def addLoop : List Int → List Int → Int → List Int
  | x :: xs, y :: ys, carry =>
    let sum := carry + x + y
    sum.tmod BASE :: addLoop xs ys (sum.tdiv BASE)
  | x :: xs, [], carry => addLoopRest (x :: xs) carry
  | [], ys, carry => addLoopRest ys carry

/-- The loop of `operator-`, case 3: limb-wise difference with borrow over the
limbs of the first operand. -/
def subLoop : List Int → List Int → Int → List Int
  | [], _, _ => []
  | x :: xs, ys, borrow =>
    let diff := x - borrow - ys.headD 0
    if diff < 0 then (diff + BASE) :: subLoop xs ys.tail 1
    else diff :: subLoop xs ys.tail 0

mutual

/-- Binary `BigInt::operator-`.  The first argument bounds the depth of the
nested `operator+` and `operator-` calls; `none` means the bound was reached. -/
def sub : Nat → BigInt → BigInt → Option BigInt
  | 0, _, _ => none
  | fuel + 1, a, b =>
    if a.negative ≠ b.negative then add fuel a (neg b)
    else if absLess a b then (sub fuel b a).map neg
    else
      some (removeLeadingZeros
        { digits := subLoop a.digits b.digits 0, negative := a.negative })

/-- Binary `BigInt::operator+`, with the same depth bound. -/
def add : Nat → BigInt → BigInt → Option BigInt
  | 0, _, _ => none
  | fuel + 1, a, b =>
    if a.negative = b.negative then
      some (removeLeadingZeros
        { digits := addLoop a.digits b.digits 0, negative := a.negative })
    else if a.negative then sub fuel b (neg a)
    else sub fuel a (neg b)

end

/-! ## Multiplication -/

/-- The update `res[idx] += v` on a vector of `int`; `w` wraps the sum to the
range of the element type. -/
def addAtIndex (w : Int → Int) : List Int → Nat → Int → List Int
  | [], _, _ => []
  | r :: rs, 0, v => w (r + v) :: rs
  | r :: rs, idx + 1, v => r :: addAtIndex w rs idx v

/-- Inner loop of the base case, `for j: res[i + j] += a[i] * b[j]`; the
second argument is the running index `i + j`. -/
def baseInner (w : Int → Int) (ai : Int) : List Int → Nat → List Int → List Int
  | [], _, res => res
  | bj :: bs, pos, res => baseInner w ai bs (pos + 1) (addAtIndex w res pos (w (ai * bj)))

/-- Outer loop of the base case, `for i`, over the limbs of `a`. -/
def baseOuter (w : Int → Int) (b : List Int) : List Int → Nat → List Int → List Int
  | [], _, res => res
  | ai :: rest, i, res => baseOuter w b rest (i + 1) (baseInner w ai b i res)

/-- The loops building `a1a2` and `b1b2`: `x[i] += y[i]` while `i` is inside
`x`, `push_back(y[i])` beyond. -/
def addExtend (w : Int → Int) : List Int → List Int → List Int
  | x :: xs, y :: ys => w (x + y) :: addExtend w xs ys
  | [], ys => ys
  | xs, [] => xs

/-- The loops `r[i] -= z[i]` for `i < z.size()`. -/
def subFrom (w : Int → Int) : List Int → List Int → List Int
  | r :: rs, z :: zs => w (r - z) :: subFrom w rs zs
  | rs, [] => rs
  | [], _ :: _ => []

/-- The loops `res[i + off] += z[i]` for `i < z.size()`. -/
def addAt (w : Int → Int) : Nat → List Int → List Int → List Int
  | 0, r :: rs, z :: zs => w (r + z) :: addAt w 0 rs zs
  | 0, rs, [] => rs
  | 0, [], _ :: _ => []
  | off + 1, r :: rs, zs => r :: addAt w off rs zs
  | _ + 1, [], _ => []

/-- The function `karatsubaMultiply` on vectors of `int`, with `w` the wrap
applied to every `int` result.  The first argument bounds the recursion depth;
`none` means the bound was reached. -/
def karatsubaFuel (w : Int → Int) : Nat → List Int → List Int → Option (List Int)
  | 0, _, _ => none
  | fuel + 1, a, b =>
    let n := a.length
    let m := b.length
    if n < m then karatsubaFuel w fuel b a
    else if n = 0 ∨ m = 0 then some []
    else if n ≤ 32 then some (baseOuter w b a 0 (List.replicate (n + m) 0))
    else
      let k := n / 2
      let a1 := a.take k
      let a2 := a.drop k
      let b1 := b.take (min m k)
      let b2 := b.drop (min m k)
      match karatsubaFuel w fuel a1 b1 with
      | none => none
      | some a1b1 =>
        match karatsubaFuel w fuel a2 b2 with
        | none => none
        | some a2b2 =>
          let a1a2 := addExtend w a1 a2
          let b1b2 := addExtend w b1 b2
          match karatsubaFuel w fuel a1a2 b1b2 with
          | none => none
          | some r0 =>
            let r1 := subFrom w r0 a1b1
            let r := subFrom w r1 a2b2
            let res0 := List.replicate (a1b1.length + 2 * (n - k)) (0 : Int)
            let res1 := addAt w 0 res0 a1b1
            let res2 := addAt w k res1 r
            some (addAt w (2 * k) res2 a2b2)

/-- The function `karatsubaMultiply` as compiled: 32-bit `int` arithmetic.
The swap takes one level and every further level at least halves the longer
operand, so the depth bound is never reached. -/
def karatsubaMultiply (a b : List Int) : Option (List Int) :=
  karatsubaFuel wrap32 (a.length + b.length + 2) a b

/-- The first loop of `operator*`: `temp = digits[i] + carry` in 64 bits,
`digits[i] = temp % BASE`, `carry = temp / BASE`.  Returns the limbs and the
carry left at the end. -/
def carryPass : List Int → Int → List Int × Int
  | [], carry => ([], carry)
  | d :: ds, carry =>
    let temp := d + carry
    let out := carryPass ds (temp.tdiv BASE)
    (temp.tmod BASE :: out.1, out.2)

/-- Binary `BigInt::operator*`.  `result` is default-constructed and only its
`digits` are assigned. -/
def mul (a b : BigInt) : Option BigInt :=
  match karatsubaMultiply a.digits b.digits with
  | none => none
  | some raw =>
    let out := carryPass raw 0
    some (removeLeadingZeros
      { zero with digits := out.1 ++ carryTail out.2.natAbs out.2 })

/-! ## Division by a machine integer -/

/-- The loop of `operator/`, on the limbs listed most significant first:
`current = digits[i] + remainder * BASE` in 64 bits, quotient limb
`current / b` stored into an `int`, `remainder = current % b`.  `none` is the
fault of a division by zero. -/
def divLoop (b : Int) : List Int → Int → Option (List Int)
  | [], _ => some []
  | d :: ds, remainder =>
    if b = 0 then none
    else
      let current := wrap64 (d + wrap64 (remainder * BASE))
      match divLoop b ds (current.tmod b) with
      | none => none
      | some rest => some (wrap32 (current.tdiv b) :: rest)

/-- The operator `BigInt::operator/(int b)`. -/
def div (a : BigInt) (b : Int) : Option BigInt :=
  match divLoop b a.digits.reverse 0 with
  | none => none
  | some q => some (removeLeadingZeros { zero with digits := q.reverse })

/-! ## Specification-side definitions for decimal text -/

/-- A run of ASCII decimal digits, `[0-9]*`. -/
def allDigits (s : List Char) : Prop := ∀ c ∈ s, isDigit c = true

/-- A non-empty digit run without superfluous leading zeros: `0` or a run
that does not start with `0`. -/
def canonicalRun (s : List Char) : Prop :=
  s ≠ [] ∧ allDigits s ∧ (s.head? = some '0' → s = ['0'])

instance allDigits_decidable (s : List Char) : Decidable (allDigits s) := by
  unfold allDigits; infer_instance

instance canonicalRun_decidable (s : List Char) : Decidable (canonicalRun s) := by
  unfold canonicalRun; infer_instance

/-- Value of a run of digit characters listed least significant first. -/
def leVal : List Char → Nat
  | [] => 0
  | c :: r => (c.toNat - 48) + 10 * leVal r

/-- Cut a list into pieces of four from its head; the last piece may be
shorter. -/
def chunk4 : List Char → List (List Char)
  | a :: b :: c :: d :: rest => [a, b, c, d] :: chunk4 rest
  | [] => []
  | l => [l]

/-- The groups of up to `WIDTH` characters of a digit run, taken from the
least significant end; the most significant group may be shorter.  Groups
are listed least significant first, each in reading order. -/
def groupsFromEnd (s : List Char) : List (List Char) :=
  (chunk4 s.reverse).map List.reverse

/-- The limbs read off the groups of a digit run. -/
def groupLimbs (s : List Char) : List Int :=
  (groupsFromEnd s).map (fun g => ((decVal g : Nat) : Int))

/-- The characters `operator<<` writes for a limb sequence: the most
significant limb as it is, every further limb padded to `WIDTH` characters. -/
def renderLimbs (ds : List Int) : List Char :=
  match ds.reverse with
  | [] => []
  | top :: rest => intChars top ++ (rest.map (fun d => padLeft WIDTH (intChars d))).flatten

/-- Decimal text `-?[0-9]+` without superfluous leading zeros, the minus sign
only before a number that is not zero. -/
def canonicalText (s : List Char) : Prop :=
  canonicalRun s ∨ ∃ ds, s = '-' :: ds ∧ canonicalRun ds ∧ ds ≠ ['0']

/-! ## Specification-side definitions for the multiplication -/

/-- Horner evaluation of a limb sequence at `x`, the limbs carried into `S` by
`c`: `c d₀ + x * (c d₁ + x * ...)`. -/
def horner {S : Type} [Add S] [Mul S] [Zero S] (x : S) (c : Int → S) : List Int → S
  | [] => 0
  | d :: ds => c d + x * horner x c ds

/-- Schoolbook convolution: the sum of `a[i] * b[j]` over `i + j = p`, entries
beyond the end of a sequence counting as `0`. -/
def convAt (a b : List Int) (p : Nat) : Int :=
  ∑ i in Finset.range (p + 1), a.getD i 0 * b.getD (p - i) 0

/-- Number of entries of the vector that `karatsubaMultiply` returns for a
first operand of `n` and a second operand of `m ≤ n` entries. -/
def kLen (n m : Nat) : Nat :=
  if n = 0 ∨ m = 0 then 0
  else if n ≤ 32 then n + m
  else kLen (n / 2) (min m (n / 2)) + 2 * (n - n / 2)
termination_by n
decreasing_by omega

/-- Number of entries of the vector that `karatsubaMultiply` returns for
operands of `n` and `m` entries, in either order. -/
def kSize (n m : Nat) : Nat := if n < m then kLen m n else kLen n m

/-- The index conditions of the recursive case of `karatsubaMultiply` on a
first operand `a` and a second operand `b`, with `k = len a / 2`: the split
points lie within `a` and `b`, the three recursive calls return `a1b1`, `a2b2`
and `r`, and every index used on `r` and on `res`, which has
`len a1b1 + 2 * (len a - k)` entries, is inside the vector. -/
def recursiveCaseInBounds (w : Int → Int) (fuel : Nat) (a b : List Int) : Prop :=
  a.length / 2 ≤ a.length ∧ min b.length (a.length / 2) ≤ b.length ∧
  ∃ a1b1 a2b2 r,
    karatsubaFuel w fuel (a.take (a.length / 2)) (b.take (min b.length (a.length / 2)))
      = some a1b1 ∧
    karatsubaFuel w fuel (a.drop (a.length / 2)) (b.drop (min b.length (a.length / 2)))
      = some a2b2 ∧
    karatsubaFuel w fuel (addExtend w (a.take (a.length / 2)) (a.drop (a.length / 2)))
        (addExtend w (b.take (min b.length (a.length / 2)))
          (b.drop (min b.length (a.length / 2))))
      = some r ∧
    a1b1.length ≤ r.length ∧
    a2b2.length ≤ r.length ∧
    r.length + a.length / 2 ≤ a1b1.length + 2 * (a.length - a.length / 2) ∧
    a2b2.length + 2 * (a.length / 2) ≤ a1b1.length + 2 * (a.length - a.length / 2)

/-! ## Basic facts -/

theorem limbsOk_nil : limbsOk [] := by
  intro d hd; cases hd

theorem limbsOk_cons {d : Int} {ds : List Int} :
    limbsOk (d :: ds) ↔ (0 ≤ d ∧ d < BASE) ∧ limbsOk ds := by
  simp [limbsOk]

theorem limbsOk_append {xs ys : List Int} :
    limbsOk (xs ++ ys) ↔ limbsOk xs ∧ limbsOk ys := by
  simp only [limbsOk, List.mem_append]
  constructor
  · intro h; exact ⟨fun d hd => h d (Or.inl hd), fun d hd => h d (Or.inr hd)⟩
  · rintro ⟨h1, h2⟩ d (hd | hd)
    · exact h1 d hd
    · exact h2 d hd

theorem limbsOk_reverse {xs : List Int} : limbsOk xs.reverse ↔ limbsOk xs := by
  simp [limbsOk]

theorem BASE_pos : (0 : Int) < BASE := by decide

theorem BASE_pow_pos (n : Nat) : (0 : Int) < BASE ^ n := pow_pos BASE_pos n

theorem mag_append (xs ys : List Int) :
    mag (xs ++ ys) = mag xs + BASE ^ xs.length * mag ys := by
  induction xs with
  | nil => simp [mag]
  | cons x xs ih =>
    show x + BASE * mag (xs ++ ys) = mag (x :: xs) + BASE ^ (x :: xs).length * mag ys
    rw [ih]
    simp only [mag, List.length_cons, pow_succ]
    ring

theorem mag_nonneg {ds : List Int} (h : limbsOk ds) : 0 ≤ mag ds := by
  induction ds with
  | nil => simp [mag]
  | cons d ds ih =>
    rw [limbsOk_cons] at h
    have := ih h.2
    have hb := BASE_pos
    simp only [mag]
    nlinarith [h.1.1]

theorem mag_lt_pow {ds : List Int} (h : limbsOk ds) : mag ds < BASE ^ ds.length := by
  induction ds with
  | nil => simp [mag]
  | cons d ds ih =>
    rw [limbsOk_cons] at h
    have h1 := ih h.2
    have hb := BASE_pos
    simp only [mag, List.length_cons, pow_succ]
    nlinarith [h.1.2]

/-- A limb list whose most significant limb is not zero is at least
`BASE ^ (length - 1)`. -/
theorem pow_le_mag_reverse {x : Int} {xs : List Int} (hx : 0 < x)
    (h : limbsOk xs) : BASE ^ xs.length ≤ mag (x :: xs).reverse := by
  rw [List.reverse_cons, mag_append]
  have h1 := mag_nonneg (limbsOk_reverse.mpr h)
  have h2 := BASE_pow_pos xs.length
  simp only [List.length_reverse, mag, mul_zero, add_zero]
  nlinarith

/-! ## Facts about `removeLeadingZeros` -/

theorem popZeros_ne_nil {l : List Int} (h : l ≠ []) : popZeros l ≠ [] := by
  induction l with
  | nil => exact absurd rfl h
  | cons x t ih =>
    cases t with
    | nil => simp [popZeros]
    | cons y ys =>
      simp only [popZeros]
      split
      · exact ih (by simp)
      · simp

theorem popZeros_limbsOk {l : List Int} (h : limbsOk l) : limbsOk (popZeros l) := by
  induction l with
  | nil => simpa [popZeros] using h
  | cons x t ih =>
    cases t with
    | nil => simpa [popZeros] using h
    | cons y ys =>
      simp only [popZeros]
      split
      · exact ih (limbsOk_cons.mp h).2
      · exact h

theorem popZeros_mag (l : List Int) : mag (popZeros l).reverse = mag l.reverse := by
  induction l with
  | nil => simp [popZeros]
  | cons x t ih =>
    cases t with
    | nil => simp [popZeros]
    | cons y ys =>
      simp only [popZeros]
      split
      · next hx =>
        rw [ih, hx, List.reverse_cons (a := (0 : Int)), mag_append]
        simp [mag]
      · rfl

theorem popZeros_head (l : List Int) (h : (popZeros l).head? = some 0) :
    popZeros l = [0] := by
  induction l with
  | nil => simp [popZeros] at h
  | cons x t ih =>
    cases t with
    | nil => simpa [popZeros] using h
    | cons y ys =>
      simp only [popZeros] at h ⊢
      split
      · next hx => rw [if_pos hx] at h; exact ih h
      · next hx => rw [if_neg hx] at h; simp at h; exact absurd h hx

theorem popZeros_length_le (l : List Int) : (popZeros l).length ≤ l.length := by
  induction l with
  | nil => simp [popZeros]
  | cons x t ih =>
    cases t with
    | nil => simp [popZeros]
    | cons y ys =>
      simp only [popZeros]
      split
      · exact Nat.le_succ_of_le ih
      · exact Nat.le_refl _

/-- A list that is already normalised is left alone by the loop. -/
theorem popZeros_id {l : List Int} (h : l.head? = some 0 → l = [0]) : popZeros l = l := by
  cases l with
  | nil => rfl
  | cons x t =>
    cases t with
    | nil => rfl
    | cons y ys =>
      simp only [popZeros]
      split
      · next hx => simp [hx] at h
      · rfl

theorem removeLeadingZeros_digits (x : BigInt) :
    (removeLeadingZeros x).digits = (popZeros x.digits.reverse).reverse := rfl

theorem removeLeadingZeros_mag (x : BigInt) :
    mag (removeLeadingZeros x).digits = mag x.digits := by
  rw [removeLeadingZeros_digits, popZeros_mag, List.reverse_reverse]

theorem removeLeadingZeros_value (x : BigInt) :
    value (removeLeadingZeros x) = value x := by
  unfold value
  rw [removeLeadingZeros_mag]
  simp only [removeLeadingZeros]
  by_cases h0 : (popZeros x.digits.reverse).reverse = [0]
  · have hm : mag x.digits = 0 := by
      rw [← removeLeadingZeros_mag, removeLeadingZeros_digits, h0]; simp [mag]
    simp [h0, hm]
  · simp [h0]

theorem removeLeadingZeros_valid {x : BigInt} (hne : x.digits ≠ [])
    (hok : limbsOk x.digits) : Valid (removeLeadingZeros x) := by
  refine ⟨?_, ?_, ?_, ?_⟩
  · rw [removeLeadingZeros_digits]
    simpa using popZeros_ne_nil (l := x.digits.reverse) (by simpa using hne)
  · rw [removeLeadingZeros_digits]
    exact limbsOk_reverse.mpr (popZeros_limbsOk (limbsOk_reverse.mpr hok))
  · rw [removeLeadingZeros_digits]
    intro h
    rw [List.getLast?_reverse] at h
    rw [popZeros_head _ h]; rfl
  · intro h
    simp only [removeLeadingZeros] at h ⊢
    simp [h]

/-- On a valid value `removeLeadingZeros` changes nothing. -/
theorem removeLeadingZeros_of_valid {x : BigInt} (h : Valid x) :
    removeLeadingZeros x = x := by
  obtain ⟨_, _, h3, h4⟩ := h
  have hp : popZeros x.digits.reverse = x.digits.reverse := by
    apply popZeros_id
    intro h0
    rw [List.head?_reverse] at h0
    rw [h3 h0]; rfl
  cases x with
  | mk ds ng =>
    simp only [removeLeadingZeros, hp, List.reverse_reverse, BigInt.mk.injEq, true_and]
    by_cases h0 : ds = [0]
    · have h5 : ng = false := h4 h0
      simp [h0, h5]
    · simp [h0]

/-! ## Facts about the limb loops of `operator+` and `operator-` -/

theorem carryTail_small {c : Int} (h0 : 0 ≤ c) (h1 : c ≤ 1) :
    carryTail c.natAbs c = if c = 0 then [] else [1] := by
  have hc : c = 0 ∨ c = 1 := by omega
  rcases hc with rfl | rfl <;> decide

theorem tmod_BASE {s : Int} (h : 0 ≤ s) : s.tmod BASE = s % 10000 :=
  Int.tmod_eq_emod h (by decide)

theorem tdiv_BASE {s : Int} (h : 0 ≤ s) : s.tdiv BASE = s / 10000 :=
  Int.tdiv_eq_ediv h (by decide)

theorem addLoopRest_spec (ys : List Int) (c : Int) (hy : limbsOk ys)
    (h0 : 0 ≤ c) (h1 : c ≤ 1) :
    limbsOk (addLoopRest ys c) ∧ mag (addLoopRest ys c) = mag ys + c := by
  induction ys generalizing c with
  | nil =>
    rw [addLoopRest, carryTail_small h0 h1]
    split
    · next h => subst h; exact ⟨limbsOk_nil, by simp [mag]⟩
    · next h =>
      have : c = 1 := by omega
      subst this
      exact ⟨by decide, by simp [mag]⟩
  | cons y ys ih =>
    rw [limbsOk_cons] at hy
    obtain ⟨⟨hy0, hy1⟩, hys⟩ := hy
    simp only [BASE] at hy1
    have hs : 0 ≤ c + y := by omega
    rw [addLoopRest]
    simp only [tmod_BASE hs, tdiv_BASE hs]
    obtain ⟨i1, i2⟩ := ih ((c + y) / 10000) hys (by omega) (by omega)
    refine ⟨limbsOk_cons.mpr ⟨⟨by omega, by simp only [BASE]; omega⟩, i1⟩, ?_⟩
    simp only [mag, i2, BASE]
    omega

/-- The carry loop on in-range limbs: in-range limbs out, and the magnitude is
the sum of the magnitudes plus the incoming carry. -/
theorem addLoop_spec (xs ys : List Int) (c : Int) (hx : limbsOk xs) (hy : limbsOk ys)
    (h0 : 0 ≤ c) (h1 : c ≤ 1) :
    limbsOk (addLoop xs ys c) ∧ mag (addLoop xs ys c) = mag xs + mag ys + c := by
  induction xs generalizing ys c with
  | nil =>
    rw [addLoop]
    have := addLoopRest_spec ys c hy h0 h1
    simpa [mag] using this
  | cons x xs ih =>
    cases ys with
    | nil =>
      rw [addLoop]
      have := addLoopRest_spec (x :: xs) c hx h0 h1
      simpa [mag] using this
    | cons y ys =>
      rw [limbsOk_cons] at hx hy
      obtain ⟨⟨hx0, hx1⟩, hxs⟩ := hx
      obtain ⟨⟨hy0, hy1⟩, hys⟩ := hy
      simp only [BASE] at hx1 hy1
      have hs : 0 ≤ c + x + y := by omega
      rw [addLoop]
      simp only [tmod_BASE hs, tdiv_BASE hs]
      obtain ⟨i1, i2⟩ := ih ys ((c + x + y) / 10000) hxs hys (by omega) (by omega)
      refine ⟨limbsOk_cons.mpr ⟨⟨by omega, by simp only [BASE]; omega⟩, i1⟩, ?_⟩
      simp only [mag, i2, BASE]
      omega

theorem addLoop_ne_nil (xs ys : List Int) (c : Int) (h : xs ≠ [] ∨ ys ≠ []) :
    addLoop xs ys c ≠ [] := by
  cases xs with
  | nil =>
    cases ys with
    | nil => simp at h
    | cons y ys => simp [addLoop, addLoopRest]
  | cons x xs =>
    cases ys <;> simp [addLoop, addLoopRest]

theorem subLoop_length (xs ys : List Int) (b : Int) :
    (subLoop xs ys b).length = xs.length := by
  induction xs generalizing ys b with
  | nil => simp [subLoop]
  | cons x xs ih =>
    simp only [subLoop]
    split <;> simp [ih]

theorem limbsOk_tail {ys : List Int} (h : limbsOk ys) : limbsOk ys.tail := by
  cases ys with
  | nil => exact h
  | cons y ys => exact (limbsOk_cons.mp h).2

theorem limbsOk_headD {ys : List Int} (h : limbsOk ys) :
    0 ≤ ys.headD 0 ∧ ys.headD 0 < 10000 := by
  cases ys with
  | nil => simp
  | cons y ys => exact (limbsOk_cons.mp h).1

theorem mag_head_tail (ys : List Int) : mag ys = ys.headD 0 + 10000 * mag ys.tail := by
  cases ys with
  | nil => simp [mag]
  | cons y ys => simp [mag, BASE]

/-- The borrow loop on in-range limbs, when the subtrahend (plus the incoming
borrow) does not exceed the minuend: in-range limbs out, and the magnitude is
the difference. -/
theorem subLoop_spec (xs ys : List Int) (b : Int) (hx : limbsOk xs) (hy : limbsOk ys)
    (h0 : 0 ≤ b) (h1 : b ≤ 1) (hlen : ys.length ≤ xs.length)
    (hle : mag ys + b ≤ mag xs) :
    limbsOk (subLoop xs ys b) ∧ mag (subLoop xs ys b) = mag xs - mag ys - b := by
  induction xs generalizing ys b with
  | nil =>
    have hys : ys = [] := by simpa using hlen
    subst hys
    simp only [mag] at hle
    simp only [subLoop, mag]
    exact ⟨limbsOk_nil, by omega⟩
  | cons x xs ih =>
    rw [limbsOk_cons] at hx
    obtain ⟨⟨hx0, hx1⟩, hxs⟩ := hx
    simp only [BASE] at hx1
    have hh := limbsOk_headD hy
    have ht := limbsOk_tail hy
    have hm := mag_head_tail ys
    have hlen2 : ys.tail.length ≤ xs.length := by
      simp only [List.length_tail, List.length_cons] at hlen ⊢; omega
    simp only [mag, BASE] at hle
    simp only [subLoop]
    split
    · next hd =>
      obtain ⟨i1, i2⟩ := ih ys.tail 1 hxs ht (by omega) (by omega) hlen2 (by omega)
      refine ⟨limbsOk_cons.mpr ⟨⟨by simp only [BASE]; omega, by simp only [BASE]; omega⟩, i1⟩, ?_⟩
      simp only [mag, i2, BASE]
      omega
    · next hd =>
      obtain ⟨i1, i2⟩ := ih ys.tail 0 hxs ht (by omega) (by omega) hlen2 (by omega)
      refine ⟨limbsOk_cons.mpr ⟨⟨by omega, by simp only [BASE]; omega⟩, i1⟩, ?_⟩
      simp only [mag, i2, BASE]
      omega

/-! ## Facts about the magnitude comparison -/

/-- On equally long in-range limb lists, given most significant first, the
first-mismatch loop decides the order of the magnitudes. -/
theorem firstDiffLess_iff (xs ys : List Int) (hlen : xs.length = ys.length)
    (hx : limbsOk xs) (hy : limbsOk ys) :
    firstDiffLess xs ys = true ↔ mag xs.reverse < mag ys.reverse := by
  induction xs generalizing ys with
  | nil =>
    have : ys = [] := by simpa using hlen.symm
    subst this
    simp [firstDiffLess]
  | cons x xs ih =>
    cases ys with
    | nil => simp at hlen
    | cons y ys =>
      have hl : xs.length = ys.length := by simpa using hlen
      rw [limbsOk_cons] at hx hy
      have hP := BASE_pow_pos xs.length
      have ux := mag_nonneg (limbsOk_reverse.mpr hx.2)
      have uy := mag_nonneg (limbsOk_reverse.mpr hy.2)
      have vx := mag_lt_pow (limbsOk_reverse.mpr hx.2)
      have vy := mag_lt_pow (limbsOk_reverse.mpr hy.2)
      simp only [List.length_reverse] at vx vy
      rw [← hl] at vy
      simp only [List.reverse_cons, mag_append, List.length_reverse, mag, mul_zero, add_zero,
        firstDiffLess, ← hl]
      by_cases hxy : x = y
      · subst hxy
        simp only [ne_eq, not_true_eq_false, if_false]
        rw [ih ys hl hx.2 hy.2]
        constructor <;> intro h <;> linarith
      · simp only [ne_eq, hxy, not_false_eq_true, if_true, decide_eq_true_eq]
        constructor
        · intro h
          have : x + 1 ≤ y := by omega
          nlinarith
        · intro h
          by_contra hn
          have : y + 1 ≤ x := by omega
          nlinarith

/-- A valid value with `n` limbs lies in `[BASE^(n-1), BASE^n)`, except that
the single limb may be `0`. -/
theorem valid_mag_bounds {x : BigInt} (h : Valid x) :
    mag x.digits < BASE ^ x.digits.length ∧
    (2 ≤ x.digits.length → BASE ^ (x.digits.length - 1) ≤ mag x.digits) := by
  obtain ⟨h1, h2, h3, _⟩ := h
  refine ⟨mag_lt_pow h2, fun hl => ?_⟩
  have hr : x.digits = x.digits.reverse.reverse := by simp
  cases hrev : x.digits.reverse with
  | nil => simp at hrev; exact absurd hrev h1
  | cons t ts =>
    have hd : x.digits = (t :: ts).reverse := by rw [← hrev]; simp
    have hok : limbsOk (t :: ts) := by rw [← hrev]; exact limbsOk_reverse.mpr h2
    rw [limbsOk_cons] at hok
    have ht : t ≠ 0 := by
      intro h0
      have : x.digits.getLast? = some 0 := by
        rw [hd, List.getLast?_reverse]; simp [h0]
      have := h3 this
      rw [this] at hl
      simp at hl
    have hlen : x.digits.length - 1 = ts.length := by rw [hd]; simp
    rw [hlen, hd]
    exact pow_le_mag_reverse (by omega) hok.2

theorem valid_length_pos {x : BigInt} (h : Valid x) : 1 ≤ x.digits.length := by
  have := h.1
  cases hx : x.digits with
  | nil => exact absurd hx this
  | cons _ _ => simp

/-- Among valid values a shorter limb list is a smaller magnitude. -/
theorem mag_lt_of_length_lt {a b : BigInt} (ha : Valid a) (hb : Valid b)
    (h : a.digits.length < b.digits.length) : mag a.digits < mag b.digits := by
  have h1 := (valid_mag_bounds ha).1
  have h2 := (valid_mag_bounds hb).2 (by have := valid_length_pos ha; omega)
  have h3 : BASE ^ a.digits.length ≤ BASE ^ (b.digits.length - 1) :=
    pow_le_pow_right₀ (by decide) (by omega)
  linarith

/-- On valid values `absLess` is the strict order of the magnitudes. -/
theorem absLess_iff {a b : BigInt} (ha : Valid a) (hb : Valid b) :
    absLess a b = true ↔ mag a.digits < mag b.digits := by
  unfold absLess
  by_cases hl : a.digits.length = b.digits.length
  · simp only [ne_eq, hl, not_true_eq_false, if_false]
    have := firstDiffLess_iff a.digits.reverse b.digits.reverse (by simpa using hl)
      (limbsOk_reverse.mpr ha.2.1) (limbsOk_reverse.mpr hb.2.1)
    simpa using this
  · simp only [ne_eq, hl, not_false_eq_true, if_true, decide_eq_true_eq]
    constructor
    · exact mag_lt_of_length_lt ha hb
    · intro h
      by_contra hn
      have := mag_lt_of_length_lt hb ha (by omega)
      omega

/-! ## Canonical representation -/

theorem mag_inj (xs ys : List Int) (hlen : xs.length = ys.length)
    (hx : limbsOk xs) (hy : limbsOk ys) (h : mag xs = mag ys) : xs = ys := by
  induction xs generalizing ys with
  | nil =>
    have : ys = [] := by simpa using hlen.symm
    exact this.symm
  | cons x xs ih =>
    cases ys with
    | nil => simp at hlen
    | cons y ys =>
      rw [limbsOk_cons] at hx hy
      obtain ⟨⟨hx0, hx1⟩, hxs⟩ := hx
      obtain ⟨⟨hy0, hy1⟩, hys⟩ := hy
      simp only [BASE] at hx1 hy1
      simp only [mag, BASE] at h
      have e1 : x = y := by omega
      have e2 : mag xs = mag ys := by omega
      rw [e1, ih ys (by simpa using hlen) hxs hys e2]

theorem valid_mag_zero {x : BigInt} (h : Valid x) (h0 : mag x.digits = 0) :
    x.digits = [0] := by
  have hb := valid_mag_bounds h
  have hp := valid_length_pos h
  have hl : x.digits.length = 1 := by
    by_contra hne
    have h2 := hb.2 (by omega)
    have := BASE_pow_pos (x.digits.length - 1)
    omega
  cases hd : x.digits with
  | nil => rw [hd] at hl; simp at hl
  | cons d ds =>
    rw [hd] at hl h0
    have : ds = [] := by simpa using hl
    subst this
    simp only [mag, mul_zero, add_zero] at h0
    rw [h0]

theorem mag_eq_of_valid {a b : BigInt} (ha : Valid a) (hb : Valid b)
    (h : mag a.digits = mag b.digits) : a.digits = b.digits := by
  have hl : a.digits.length = b.digits.length := by
    by_contra hne
    rcases Nat.lt_or_gt_of_ne hne with h1 | h1
    · have := mag_lt_of_length_lt ha hb h1; omega
    · have := mag_lt_of_length_lt hb ha h1; omega
  exact mag_inj _ _ hl ha.2.1 hb.2.1 h

/-- A valid `BigInt` is determined by the integer it denotes. -/
theorem valid_ext {a b : BigInt} (ha : Valid a) (hb : Valid b)
    (h : value a = value b) : a = b := by
  cases a with
  | mk da na =>
    cases b with
    | mk db nb =>
      have ma : 0 ≤ mag da := mag_nonneg ha.2.1
      have mb : 0 ≤ mag db := mag_nonneg hb.2.1
      simp only [value] at h
      cases na <;> cases nb <;> simp only [Bool.false_eq_true, if_false, if_true] at h
      · rw [show da = db from mag_eq_of_valid ha hb h]
      · have h0 : mag db = 0 := by omega
        have := hb.2.2.2 (valid_mag_zero hb h0)
        simp at this
      · have h0 : mag da = 0 := by omega
        have := ha.2.2.2 (valid_mag_zero ha h0)
        simp at this
      · rw [show da = db from mag_eq_of_valid ha hb (show mag da = mag db by omega)]

/-! ## Facts about negation, addition and subtraction -/

theorem neg_valid {x : BigInt} (h : Valid x) : Valid (neg x) := by
  unfold neg
  split
  · next h0 =>
    exact ⟨h.1, h.2.1, h.2.2.1, fun h1 => absurd h1 h0⟩
  · exact h

theorem neg_value (x : BigInt) : value (neg x) = - value x := by
  unfold neg
  split
  · next h0 =>
    unfold value
    cases x.negative <;> simp
  · next h0 =>
    have h1 : x.digits = [0] := by simpa using h0
    unfold value
    rw [h1]
    simp [mag]

theorem neg_digits (x : BigInt) : (neg x).digits = x.digits := by
  unfold neg; split <;> rfl

theorem neg_negative_of_negative {x : BigInt} (h : Valid x) (hn : x.negative = true) :
    (neg x).negative = false := by
  unfold neg
  split
  · simp [hn]
  · next h0 =>
    have h1 : x.digits = [0] := by simpa using h0
    have := h.2.2.2 h1
    rw [hn] at this
    cases this

/-- Case 3 of `operator-`: equal signs and `|a| ≥ |b|`. -/
theorem subCore_spec {a b : BigInt} (ha : Valid a) (hb : Valid b)
    (hs : a.negative = b.negative) (hl : absLess a b = false) :
    Valid (removeLeadingZeros
        { digits := subLoop a.digits b.digits 0, negative := a.negative }) ∧
    value (removeLeadingZeros
        { digits := subLoop a.digits b.digits 0, negative := a.negative }) =
      value a - value b := by
  have hm : mag b.digits ≤ mag a.digits := by
    by_contra hn
    have := (absLess_iff ha hb).mpr (by omega)
    rw [hl] at this
    cases this
  have hlen : b.digits.length ≤ a.digits.length := by
    by_contra hn
    have := mag_lt_of_length_lt ha hb (by omega)
    omega
  obtain ⟨s1, s2⟩ := subLoop_spec a.digits b.digits 0 ha.2.1 hb.2.1 (by omega) (by omega)
    hlen (by omega)
  constructor
  · apply removeLeadingZeros_valid
    · intro h0
      have h1 := subLoop_length a.digits b.digits 0
      have h2 := valid_length_pos ha
      simp only at h0
      rw [h0] at h1
      simp at h1
      omega
    · exact s1
  · rw [removeLeadingZeros_value]
    simp only [value, s2, ← hs]
    cases a.negative <;> simp only [Bool.false_eq_true, if_false, if_true] <;> ring

/-- The method `operator-` on operands of equal sign: at most one nested call. -/
theorem sub_same_sign {a b : BigInt} (ha : Valid a) (hb : Valid b)
    (hs : a.negative = b.negative) (fuel : Nat) :
    ∃ r, sub (fuel + 2) a b = some r ∧ Valid r ∧ value r = value a - value b := by
  by_cases hl : absLess a b = true
  · have hm := (absLess_iff ha hb).mp hl
    have hl2 : absLess b a = false := by
      cases h : absLess b a
      · rfl
      · have := (absLess_iff hb ha).mp h; omega
    obtain ⟨c1, c2⟩ := subCore_spec hb ha hs.symm hl2
    refine ⟨neg (removeLeadingZeros
        { digits := subLoop b.digits a.digits 0, negative := b.negative }), ?_, neg_valid c1, ?_⟩
    · rw [sub, if_neg (fun h => h hs), if_pos hl, sub, if_neg (fun h => h hs.symm)]
      simp [hl2]
    · rw [neg_value, c2]; ring
  · have hl2 : absLess a b = false := by simpa using hl
    obtain ⟨c1, c2⟩ := subCore_spec ha hb hs hl2
    refine ⟨_, ?_, c1, c2⟩
    rw [sub, if_neg (fun h => h hs)]
    simp [hl2]

/-- The method `operator+` on valid operands: it returns within three nested
calls, the result is valid and denotes the sum. -/
theorem add_spec {a b : BigInt} (ha : Valid a) (hb : Valid b) (fuel : Nat) :
    ∃ r, add (fuel + 3) a b = some r ∧ Valid r ∧ value r = value a + value b := by
  by_cases hs : a.negative = b.negative
  · obtain ⟨s1, s2⟩ := addLoop_spec a.digits b.digits 0 ha.2.1 hb.2.1 (by omega) (by omega)
    refine ⟨removeLeadingZeros
      { digits := addLoop a.digits b.digits 0, negative := a.negative }, ?_,
      removeLeadingZeros_valid ?_ s1, ?_⟩
    · rw [add, if_pos hs]
    · exact addLoop_ne_nil _ _ _ (Or.inl ha.1)
    · rw [removeLeadingZeros_value]
      simp only [value, s2, ← hs]
      cases a.negative <;> simp only [Bool.false_eq_true, if_false, if_true] <;> ring
  · by_cases hn : a.negative = true
    · have hbn : b.negative = false := by
        cases h : b.negative
        · rfl
        · rw [hn, h] at hs; exact absurd rfl hs
      obtain ⟨r, r1, r2, r3⟩ := sub_same_sign hb (neg_valid ha)
        (by rw [hbn, neg_negative_of_negative ha hn]) fuel
      refine ⟨r, ?_, r2, ?_⟩
      · rw [add, if_neg hs, if_pos hn]
        exact r1
      · rw [r3, neg_value]; ring
    · have han : a.negative = false := by simpa using hn
      have hbn : b.negative = true := by
        cases h : b.negative
        · rw [han, h] at hs; exact absurd rfl hs
        · rfl
      obtain ⟨r, r1, r2, r3⟩ := sub_same_sign ha (neg_valid hb)
        (by rw [han, neg_negative_of_negative hb hbn]) fuel
      refine ⟨r, ?_, r2, ?_⟩
      · rw [add, if_neg hs, if_neg hn]
        exact r1
      · rw [r3, neg_value]; ring

/-- The method `operator-` on valid operands: it returns within four nested
calls, the result is valid and denotes the difference. -/
theorem sub_spec {a b : BigInt} (ha : Valid a) (hb : Valid b) (fuel : Nat) :
    ∃ r, sub (fuel + 4) a b = some r ∧ Valid r ∧ value r = value a - value b := by
  by_cases hs : a.negative = b.negative
  · exact sub_same_sign ha hb hs (fuel + 2)
  · obtain ⟨r, r1, r2, r3⟩ := add_spec ha (neg_valid hb) fuel
    refine ⟨r, ?_, r2, ?_⟩
    · rw [sub, if_pos hs]
      exact r1
    · rw [r3, neg_value]; ring

/-! ## Facts about the division loop -/

theorem wrap32_id {x : Int} (h0 : -2147483648 ≤ x) (h1 : x ≤ 2147483647) : wrap32 x = x := by
  unfold wrap32; omega

theorem wrap64_id {x : Int} (h0 : -9223372036854775808 ≤ x) (h1 : x ≤ 9223372036854775807) :
    wrap64 x = x := by
  unfold wrap64; omega

/-- Long division by a positive `int`, limbs most significant first, entered
with a remainder below the divisor: the quotient limbs are in range, as many
as the dividend limbs, and denote the floor quotient. -/
theorem divLoop_spec (b : Int) (hb0 : 0 < b) (hb1 : b ≤ 2147483647) (xs : List Int)
    (hx : limbsOk xs) (rem : Int) (hr0 : 0 ≤ rem) (hr1 : rem < b) :
    ∃ q, divLoop b xs rem = some q ∧ limbsOk q ∧ q.length = xs.length ∧
      mag q.reverse = (rem * BASE ^ xs.length + mag xs.reverse) / b := by
  induction xs generalizing rem with
  | nil =>
    refine ⟨[], rfl, limbsOk_nil, rfl, ?_⟩
    simp only [List.reverse_nil, mag, List.length_nil, pow_zero, mul_one, add_zero]
    exact (Int.ediv_eq_zero_of_lt hr0 hr1).symm
  | cons d ds ih =>
    rw [limbsOk_cons] at hx
    obtain ⟨⟨hd0, hd1⟩, hds⟩ := hx
    simp only [BASE] at hd1
    have hw1 : wrap64 (rem * BASE) = rem * 10000 := by
      simp only [BASE]; exact wrap64_id (by omega) (by omega)
    have hw2 : wrap64 (d + rem * 10000) = d + rem * 10000 := wrap64_id (by omega) (by omega)
    have hc0 : 0 ≤ d + rem * 10000 := by omega
    have hq0 : 0 ≤ (d + rem * 10000) / b := Int.ediv_nonneg hc0 (by omega)
    have hq1 : (d + rem * 10000) / b < 10000 :=
      Int.ediv_lt_of_lt_mul hb0 (by nlinarith)
    have hm0 : 0 ≤ (d + rem * 10000) % b := Int.emod_nonneg _ (by omega)
    have hm1 : (d + rem * 10000) % b < b := Int.emod_lt_of_pos _ hb0
    obtain ⟨q, e1, e2, e3, e4⟩ := ih hds ((d + rem * 10000) % b) hm0 hm1
    refine ⟨(d + rem * 10000) / b :: q, ?_, ?_, ?_, ?_⟩
    · rw [divLoop, if_neg (by omega)]
      simp only [hw1, hw2, Int.tmod_eq_emod hc0 (le_of_lt hb0),
        Int.tdiv_eq_ediv hc0 (le_of_lt hb0), e1]
      rw [wrap32_id (by omega) (by omega)]
    · exact limbsOk_cons.mpr ⟨⟨hq0, by simp only [BASE]; exact hq1⟩, e2⟩
    · simp [e3]
    · have hcur := Int.ediv_add_emod (d + rem * 10000) b
      simp only [List.reverse_cons, mag_append, List.length_reverse, mag, mul_zero, add_zero,
        e4, e3, List.length_cons, pow_succ]
      have hnum : rem * (BASE ^ ds.length * BASE) + (mag ds.reverse + BASE ^ ds.length * d)
          = ((d + rem * 10000) % b * BASE ^ ds.length + mag ds.reverse)
            + b * ((d + rem * 10000) / b * BASE ^ ds.length) := by
        have : (d + rem * 10000) * BASE ^ ds.length
            = (b * ((d + rem * 10000) / b) + (d + rem * 10000) % b) * BASE ^ ds.length := by
          rw [hcur]
        simp only [BASE] at this ⊢
        linarith
      rw [hnum, Int.add_mul_ediv_left _ _ (by omega : b ≠ 0)]
      ring

/-- The method `operator/` on a valid non-negative dividend and a positive
`int` divisor. -/
theorem div_spec {a : BigInt} (ha : Valid a) (hn : a.negative = false) {d : Int}
    (hd0 : 0 < d) (hd1 : d ≤ 2147483647) :
    ∃ r, div a d = some r ∧ Valid r ∧ value r = value a / d := by
  obtain ⟨q, e1, e2, e3, e4⟩ := divLoop_spec d hd0 hd1 a.digits.reverse
    (limbsOk_reverse.mpr ha.2.1) 0 (le_refl 0) hd0
  refine ⟨removeLeadingZeros { zero with digits := q.reverse }, ?_, ?_, ?_⟩
  · simp only [div, e1]
  · apply removeLeadingZeros_valid
    · have := valid_length_pos ha
      intro h0
      simp only [List.reverse_eq_nil_iff] at h0
      rw [h0] at e3
      simp at e3
      omega
    · exact limbsOk_reverse.mpr e2
  · rw [removeLeadingZeros_value]
    have hz : zero.negative = false := by decide
    simp only [value, hz, hn, Bool.false_eq_true, if_false, e4, zero_mul, zero_add,
      List.reverse_reverse]

/-! ## Facts about parsing decimal text -/

theorem allDigits_cons {c : Char} {s : List Char} :
    allDigits (c :: s) ↔ isDigit c = true ∧ allDigits s := by
  simp [allDigits]

theorem isDigit_iff {c : Char} : isDigit c = true ↔ 48 ≤ c.toNat ∧ c.toNat ≤ 57 := by
  simp [isDigit]

theorem isDigit_not_space {c : Char} (h : isDigit c = true) : isSpace c = false := by
  rw [isDigit_iff] at h
  have hne : c ≠ ' ' := by
    intro hc; rw [hc] at h; revert h; decide
  simp only [isSpace, Bool.or_eq_false_iff, decide_eq_false_iff_not, Bool.and_eq_false_iff,
    Nat.not_le]
  exact ⟨hne, Or.inr (by omega)⟩

theorem isDigit_not_sign {c : Char} (h : isDigit c = true) : c ≠ '-' ∧ c ≠ '+' := by
  rw [isDigit_iff] at h
  constructor <;> (intro hc; rw [hc] at h; revert h; decide)

theorem takeWhile_allDigits {s : List Char} (h : allDigits s) : s.takeWhile isDigit = s := by
  induction s with
  | nil => rfl
  | cons c s ih =>
    rw [allDigits_cons] at h
    simp [List.takeWhile, h.1, ih h.2]

/-- On a non-empty run of digits `std::stoi` returns its decimal value. -/
theorem stoi_digits {s : List Char} (hne : s ≠ []) (h : allDigits s) :
    stoi s = some ((decVal s : Nat) : Int) := by
  cases s with
  | nil => exact absurd rfl hne
  | cons c t =>
    have hc := (allDigits_cons.mp h).1
    have h1 := isDigit_not_space hc
    have h2 := isDigit_not_sign hc
    have hbody : (c :: t).dropWhile isSpace = c :: t := by
      simp [List.dropWhile, h1]
    have hsign : stoiSign (c :: t) = (1, c :: t) := by
      unfold stoiSign
      split
      · next r heq => simp at heq; exact absurd heq.1 h2.1
      · next r heq => simp at heq; exact absurd heq.1 h2.2
      · rfl
    unfold stoi
    simp [hbody, hsign, takeWhile_allDigits h]

theorem decVal_append_one (s : List Char) (c : Char) :
    decVal (s ++ [c]) = 10 * decVal s + (c.toNat - 48) := by
  simp [decVal, List.foldl_append]

theorem decVal_reverse (r : List Char) : decVal r.reverse = leVal r := by
  induction r with
  | nil => rfl
  | cons c r ih =>
    rw [List.reverse_cons, decVal_append_one, ih, leVal]
    omega

theorem decVal_eq_leVal (s : List Char) : decVal s = leVal s.reverse := by
  rw [← decVal_reverse, List.reverse_reverse]

theorem leVal_lt (r : List Char) (h : allDigits r) : leVal r < 10 ^ r.length := by
  induction r with
  | nil => simp [leVal]
  | cons c r ih =>
    rw [allDigits_cons] at h
    have h1 := isDigit_iff.mp h.1
    have h2 := ih h.2
    simp only [leVal, List.length_cons, pow_succ]
    omega

theorem chunk4_short {l : List Char} (h0 : l ≠ []) (h4 : l.length ≤ 4) : chunk4 l = [l] := by
  match l, h0, h4 with
  | [a], _, _ => rfl
  | [a, b], _, _ => rfl
  | [a, b, c], _, _ => rfl
  | [a, b, c, d], _, _ => rfl
  | _ :: _ :: _ :: _ :: _ :: _, _, h => simp at h

theorem chunk4_long {l : List Char} (h4 : 4 ≤ l.length) :
    chunk4 l = l.take 4 :: chunk4 (l.drop 4) := by
  match l, h4 with
  | a :: b :: c :: d :: rest, _ => simp [chunk4]
  | [], h => simp at h
  | [_], h => simp at h
  | [_, _], h => simp at h
  | [_, _, _], h => simp at h

/-- Every piece of `chunk4` is non-empty and at most four long. -/
theorem chunk4_pieces (l : List Char) : ∀ g ∈ chunk4 l, g ≠ [] ∧ g.length ≤ 4 ∧ ∀ c ∈ g, c ∈ l := by
  induction l using chunk4.induct with
  | case1 a b c d rest ih =>
    intro g hg
    simp only [chunk4, List.mem_cons] at hg
    rcases hg with rfl | hg
    · simp
    · obtain ⟨i1, i2, i3⟩ := ih g hg
      refine ⟨i1, i2, fun x hx => ?_⟩
      simp [i3 x hx]
  | case2 => intro g hg; simp [chunk4] at hg
  | case3 l h1 h2 =>
    intro g hg
    have hl : l.length ≤ 4 := by
      match l, h1 with
      | [], _ => simp
      | [_], _ => simp
      | [_, _], _ => simp
      | [_, _, _], _ => simp
      | a :: b :: c :: d :: rest, h => exact absurd rfl (h a b c d rest)
    have hne : l ≠ [] := h2
    rw [chunk4_short hne hl] at hg
    simp only [List.mem_singleton] at hg
    subst hg
    exact ⟨hne, hl, fun _ hx => hx⟩

theorem groupLimbs_eq (s : List Char) :
    groupLimbs s = (chunk4 s.reverse).map (fun g => ((leVal g : Nat) : Int)) := by
  simp [groupLimbs, groupsFromEnd, decVal_reverse, Function.comp_def]

theorem groupLimbs_short {l : List Char} (h0 : l ≠ []) (h4 : l.length ≤ 4) :
    groupLimbs l = [((decVal l : Nat) : Int)] := by
  have h : chunk4 l.reverse = [l.reverse] := chunk4_short (by simpa using h0) (by simpa using h4)
  simp [groupLimbs, groupsFromEnd, h]

theorem groupLimbs_long {l : List Char} (h4 : 4 ≤ l.length) :
    groupLimbs l = ((decVal (l.drop (l.length - 4)) : Nat) : Int)
      :: groupLimbs (l.take (l.length - 4)) := by
  have h : chunk4 l.reverse = l.reverse.take 4 :: chunk4 (l.reverse.drop 4) :=
    chunk4_long (by simpa using h4)
  simp only [groupLimbs, groupsFromEnd, h, List.map_cons, List.take_reverse, List.drop_reverse,
    List.reverse_reverse]

theorem mag_chunk4 (r : List Char) :
    mag ((chunk4 r).map (fun g => ((leVal g : Nat) : Int))) = (leVal r : Int) := by
  induction r using chunk4.induct with
  | case1 a b c d rest ih =>
    simp only [chunk4, List.map_cons, mag, ih, leVal, BASE]
    push_cast
    ring
  | case2 => simp [chunk4, mag, leVal]
  | case3 l h1 h2 =>
    have hl : l.length ≤ 4 := by
      match l, h1 with
      | [], _ => simp
      | [_], _ => simp
      | [_, _], _ => simp
      | [_, _, _], _ => simp
      | a :: b :: c :: d :: rest, h => exact absurd rfl (h a b c d rest)
    rw [chunk4_short h2 hl]
    simp [mag]

/-- The limbs read off the groups of a digit run denote its decimal value. -/
theorem mag_groupLimbs (s : List Char) : mag (groupLimbs s) = (decVal s : Int) := by
  rw [groupLimbs_eq, mag_chunk4, decVal_eq_leVal]

theorem limbsOk_groupLimbs {s : List Char} (h : allDigits s) : limbsOk (groupLimbs s) := by
  rw [groupLimbs_eq]
  intro d hd
  simp only [List.mem_map] at hd
  obtain ⟨g, hg, rfl⟩ := hd
  obtain ⟨_, g2, g3⟩ := chunk4_pieces _ g hg
  have hgd : allDigits g := fun c hc => h c (by simpa using g3 c hc)
  have h1 := leVal_lt g hgd
  have h2 : (10 : Nat) ^ g.length ≤ 10 ^ 4 := Nat.pow_le_pow_right (by decide) g2
  simp only [BASE]
  omega

theorem groupLimbs_ne_nil {s : List Char} (h : s ≠ []) : groupLimbs s ≠ [] := by
  by_cases h4 : 4 ≤ s.length
  · rw [groupLimbs_long h4]; simp
  · rw [groupLimbs_short h (by omega)]; simp

theorem parseLoop_done (str : List Char) (start fuel i : Nat) (h : i ≤ start) :
    parseLoop str start (fuel + 1) i = some [] := by
  rw [parseLoop, if_neg (by omega)]

theorem parseLoop_piece (pre ds : List Char) (j : Nat) :
    ((pre ++ ds).drop (max pre.length (pre.length + j - WIDTH))).take
        (pre.length + j - max pre.length (pre.length + j - WIDTH))
      = (ds.take j).drop (j - 4) := by
  have hmax : max pre.length (pre.length + j - WIDTH) = pre.length + (j - 4) := by
    simp only [WIDTH]; omega
  rw [hmax, List.drop_append, List.drop_take]
  congr 1
  omega

/-- The loop of the string constructor, entered at offset `j` of the digit
run, pushes the limbs of the groups of the first `j` digits. -/
theorem parseLoop_eq (pre ds : List Char) (hd : allDigits ds) :
    ∀ j, j ≤ ds.length → ∀ fuel, j < fuel →
      parseLoop (pre ++ ds) pre.length fuel (pre.length + j) = some (groupLimbs (ds.take j)) := by
  intro j
  induction j using Nat.strong_induction_on with
  | _ j ih =>
    intro hj fuel hf
    obtain ⟨f, rfl⟩ : ∃ f, fuel = f + 1 := ⟨fuel - 1, by omega⟩
    by_cases hj0 : j = 0
    · subst hj0
      rw [parseLoop_done _ _ _ _ (by omega)]
      simp [groupLimbs, groupsFromEnd, chunk4]
    · have hlen : (ds.take j).length = j := by simp [hj]
      have hpd : allDigits ((ds.take j).drop (j - 4)) := fun c hc =>
        hd c (List.mem_of_mem_take (List.mem_of_mem_drop hc))
      have hpn : (ds.take j).drop (j - 4) ≠ [] := by
        intro h0
        have := congrArg List.length h0
        simp only [List.length_drop, hlen, List.length_nil] at this
        omega
      rw [parseLoop, if_pos (by omega)]
      simp only [parseLoop_piece, stoi_digits hpn hpd]
      by_cases h4 : j ≤ 4
      · obtain ⟨f2, rfl⟩ : ∃ f2, f = f2 + 1 := ⟨f - 1, by omega⟩
        rw [parseLoop_done _ _ _ _ (by simp only [WIDTH]; omega)]
        have h0 : j - 4 = 0 := by omega
        rw [groupLimbs_short (by intro h; rw [h] at hlen; simp at hlen; omega) (by omega), h0]
        simp
      · have hi : pre.length + j - WIDTH = pre.length + (j - 4) := by
          simp only [WIDTH]; omega
        rw [hi, ih (j - 4) (by omega) (by omega) f (by omega)]
        rw [groupLimbs_long (l := ds.take j) (by omega), hlen, List.take_take]
        simp only [Option.some.injEq, List.cons.injEq, true_and]
        congr 2
        omega

theorem fromString_plain {ds : List Char} (hne : ds ≠ []) (hd : allDigits ds) :
    fromString ds = some (removeLeadingZeros { digits := groupLimbs ds, negative := false }) := by
  have hloop := parseLoop_eq [] ds hd ds.length (le_refl _) (ds.length + 1) (by omega)
  simp only [List.nil_append, List.length_nil, Nat.zero_add, List.take_length] at hloop
  cases ds with
  | nil => exact absurd rfl hne
  | cons c t =>
    have hc := (isDigit_not_sign (allDigits_cons.mp hd).1).1
    have hneg : decide ((c :: t).head? = some '-') = false := by simpa using hc
    simp only [fromString, hneg, Bool.false_eq_true, if_false, hloop]

theorem fromString_minus {ds : List Char} (hd : allDigits ds) :
    fromString ('-' :: ds)
      = some (removeLeadingZeros { digits := groupLimbs ds, negative := true }) := by
  have hloop := parseLoop_eq ['-'] ds hd ds.length (le_refl _) (1 + ds.length + 1) (by omega)
  simp only [List.singleton_append, List.length_singleton, List.take_length] at hloop
  have hneg : decide (('-' :: ds).head? = some '-') = true := by simp
  simp only [fromString, hneg, if_true, List.length_cons]
  rw [Nat.add_comm ds.length 1, hloop]

theorem popZeros_zeros (l : List Int) : ∃ k, l = List.replicate k 0 ++ popZeros l := by
  induction l with
  | nil => exact ⟨0, rfl⟩
  | cons x t ih =>
    cases t with
    | nil => exact ⟨0, rfl⟩
    | cons y ys =>
      simp only [popZeros]
      split
      · next hx =>
        obtain ⟨k, hk⟩ := ih
        refine ⟨k + 1, ?_⟩
        rw [hx, List.replicate_succ, List.cons_append, ← hk]
      · exact ⟨0, rfl⟩

/-- What `removeLeadingZeros` removes are zero limbs at the most significant
end. -/
theorem removeLeadingZeros_zeros (x : BigInt) :
    ∃ k, x.digits = (removeLeadingZeros x).digits ++ List.replicate k 0 := by
  obtain ⟨k, hk⟩ := popZeros_zeros x.digits.reverse
  refine ⟨k, ?_⟩
  have := congrArg List.reverse hk
  simpa [removeLeadingZeros_digits] using this

/-- The sign flag after `removeLeadingZeros`, on in-range limbs: kept unless
the magnitude is zero. -/
theorem removeLeadingZeros_negative {x : BigInt} (hne : x.digits ≠ [])
    (hok : limbsOk x.digits) :
    (removeLeadingZeros x).negative = (x.negative && decide (mag x.digits ≠ 0)) := by
  have hv := removeLeadingZeros_valid hne hok
  have hm := removeLeadingZeros_mag x
  by_cases h0 : (removeLeadingZeros x).digits = [0]
  · have hz : mag x.digits = 0 := by rw [← hm, h0]; simp [mag]
    rw [hv.2.2.2 h0]
    simp [hz]
  · have hz : mag x.digits ≠ 0 := by
      intro hz
      exact h0 (valid_mag_zero hv (by rw [hm, hz]))
    have h1 : (popZeros x.digits.reverse).reverse ≠ [0] := h0
    simp [removeLeadingZeros, h1, hz]

/-- The string constructor on an optional minus sign followed by a non-empty
run of digits. -/
theorem fromString_digits (ds : List Char) (isNeg : Bool) (hne : ds ≠ [])
    (hd : allDigits ds) :
    fromString ((if isNeg then ['-'] else []) ++ ds)
      = some (removeLeadingZeros { digits := groupLimbs ds, negative := isNeg }) := by
  cases isNeg
  · simpa using fromString_plain hne hd
  · simpa using fromString_minus hd

/-! ## Facts about rendering -/

theorem render_eq {x : BigInt} (h : x.digits ≠ []) :
    render x = some ((if x.negative && !(decide (x.digits = [0])) then ['-'] else [])
      ++ renderLimbs x.digits) := by
  unfold render renderLimbs
  cases hrev : x.digits.reverse with
  | nil => simp at hrev; exact absurd hrev h
  | cons top rest => simp

theorem renderLimbs_cons {v : Int} {ds : List Int} (h : ds ≠ []) :
    renderLimbs (v :: ds) = renderLimbs ds ++ padLeft WIDTH (intChars v) := by
  unfold renderLimbs
  cases hrev : ds.reverse with
  | nil => simp at hrev; exact absurd hrev h
  | cons top rest => simp [hrev]

theorem renderLimbs_single (v : Int) : renderLimbs [v] = intChars v := by
  simp [renderLimbs]

theorem intChars_natCast (n : Nat) : intChars (n : Int) = natChars n := by
  simp [intChars]

theorem natCharsAux_eq (fuel : Nat) : ∀ (n : Nat) (acc : List Char), 0 < n → n ≤ fuel →
    natCharsAux fuel n acc
      = ((Nat.digits 10 n).reverse.map (fun d => Char.ofNat (48 + d))) ++ acc := by
  induction fuel with
  | zero => intro n acc h0 h1; omega
  | succ fuel ih =>
    intro n acc h0 h1
    rw [natCharsAux, Nat.digits_def' (by decide) h0]
    split
    · next hz => simp [hz]
    · next hz =>
      rw [ih (n / 10) _ (by omega) (by omega)]
      simp

theorem natChars_pos {n : Nat} (h : 0 < n) :
    natChars n = (Nat.digits 10 n).reverse.map (fun d => Char.ofNat (48 + d)) := by
  rw [natChars, natCharsAux_eq (n + 1) n [] h (by omega)]
  simp

theorem leVal_eq_ofDigits (r : List Char) :
    leVal r = Nat.ofDigits 10 (r.map (fun c => c.toNat - 48)) := by
  induction r with
  | nil => rfl
  | cons c r ih => rw [leVal, List.map_cons, Nat.ofDigits_cons, ih]

theorem char_eq_zero_of_toNat {c : Char} (h : c.toNat = 48) : c = '0' := by
  rw [← Char.ofNat_toNat c, h]

theorem digitChar_digitVal {c : Char} (h : isDigit c = true) :
    Char.ofNat (48 + (c.toNat - 48)) = c := by
  rw [isDigit_iff] at h
  rw [show 48 + (c.toNat - 48) = c.toNat by omega, Char.ofNat_toNat]

/-- Printing the value of a digit run without leading zeros gives the run back. -/
theorem natChars_decVal {s : List Char} (h : canonicalRun s) : natChars (decVal s) = s := by
  obtain ⟨hne, hd, h0⟩ := h
  by_cases hz : s.head? = some '0'
  · rw [h0 hz]; decide
  · have hL : ∀ l ∈ s.reverse.map (fun c => c.toNat - 48), l < 10 := by
      intro l hl
      simp only [List.mem_map, List.mem_reverse] at hl
      obtain ⟨c, hc, rfl⟩ := hl
      have := isDigit_iff.mp (hd c hc)
      omega
    have hlast : ∀ hn : s.reverse.map (fun c => c.toNat - 48) ≠ [],
        (s.reverse.map (fun c => c.toNat - 48)).getLast hn ≠ 0 := by
      intro hn
      cases s with
      | nil => exact absurd rfl hne
      | cons c t =>
        have hc := isDigit_iff.mp (hd c (by simp))
        have hc0 : c ≠ '0' := by simpa using hz
        have : c.toNat ≠ 48 := fun h48 => hc0 (char_eq_zero_of_toNat h48)
        simp only [List.reverse_cons, List.map_append, List.map_cons, List.map_nil,
          List.getLast_append_singleton]
        omega
    have hdig := Nat.digits_ofDigits 10 (by decide) _ hL hlast
    rw [← leVal_eq_ofDigits, ← decVal_eq_leVal] at hdig
    have hpos : 0 < decVal s := by
      rcases Nat.eq_zero_or_pos (decVal s) with h | h
      · rw [h] at hdig
        simp at hdig
        exact absurd hdig hne
      · exact h
    rw [natChars_pos hpos, hdig]
    simp only [← List.map_reverse, List.reverse_reverse, List.map_map]
    calc s.map ((fun d => Char.ofNat (48 + d)) ∘ fun c => c.toNat - 48)
        = s.map id := List.map_congr_left (fun c hc => digitChar_digitVal (hd c hc))
      _ = s := List.map_id s

theorem decVal_cons_zero (t : List Char) : decVal ('0' :: t) = decVal t := by
  simp [decVal]

theorem decVal_pos {s : List Char} (h : canonicalRun s) (h0 : s ≠ ['0']) : 0 < decVal s := by
  rcases Nat.eq_zero_or_pos (decVal s) with hz | hz
  · have := natChars_decVal h
    rw [hz] at this
    exact absurd this.symm h0
  · exact hz

theorem canonicalRun_of_head {c : Char} {t : List Char} (hd : allDigits (c :: t))
    (hc : c ≠ '0') : canonicalRun (c :: t) :=
  ⟨by simp, hd, fun h => absurd (by simpa using h) hc⟩

/-- Printing the value of a digit run padded to the length of the run gives
the run back, leading zeros included. -/
theorem padLeft_natChars (s : List Char) (hne : s ≠ []) (hd : allDigits s) :
    padLeft s.length (natChars (decVal s)) = s := by
  induction s with
  | nil => exact absurd rfl hne
  | cons c t ih =>
    by_cases hc : c = '0'
    · subst hc
      by_cases ht : t = []
      · subst ht; decide
      · have i := ih ht (allDigits_cons.mp hd).2
        rw [decVal_cons_zero]
        have hlen : (natChars (decVal t)).length ≤ t.length := by
          have := congrArg List.length i
          simp only [padLeft, List.length_append, List.length_replicate] at this
          omega
        have hsub : (t.length + 1) - (natChars (decVal t)).length
            = (t.length - (natChars (decVal t)).length) + 1 := by omega
        simp only [padLeft, List.length_cons, hsub, List.replicate_succ, List.cons_append]
        simp only [padLeft] at i
        rw [i]
    · rw [natChars_decVal (canonicalRun_of_head hd hc)]
      simp [padLeft]

theorem chunk4_ne_nil {l : List Char} (h : l ≠ []) : chunk4 l ≠ [] := by
  by_cases h4 : 4 ≤ l.length
  · rw [chunk4_long h4]; simp
  · rw [chunk4_short h (by omega)]; simp

theorem canonicalRun_reverse {r : List Char} (hne : r ≠ []) (hd : allDigits r)
    (h0 : r.getLast? = some '0' → r = ['0']) : canonicalRun r.reverse := by
  refine ⟨by simpa using hne, fun c hc => hd c (by simpa using hc), fun h => ?_⟩
  rw [List.head?_reverse] at h
  rw [h0 h]; rfl

theorem getLast?_cons_of_ne_nil {α : Type} (a : α) {l : List α} (h : l ≠ []) :
    (a :: l).getLast? = l.getLast? := by
  cases l with
  | nil => exact absurd rfl h
  | cons b t => simp [List.getLast?_cons_cons]

/-- Rendering the limbs of the groups of a digit run (given least significant
character first) without leading zeros gives the run back. -/
theorem renderLimbs_chunk4 (r : List Char) : r ≠ [] → allDigits r →
    (r.getLast? = some '0' → r = ['0']) →
    renderLimbs ((chunk4 r).map (fun g => ((leVal g : Nat) : Int))) = r.reverse := by
  induction r using chunk4.induct with
  | case1 a b c d rest ih =>
    intro hne hd h0
    by_cases hrest : rest = []
    · subst hrest
      have hc := canonicalRun_reverse hne hd h0
      simp only [chunk4, List.map_cons, List.map_nil, renderLimbs_single, intChars_natCast]
      rw [← decVal_reverse, natChars_decVal hc]
    · have hdr : allDigits rest := fun x hx => hd x (by simp [hx])
      have hlast : (a :: b :: c :: d :: rest).getLast? = rest.getLast? := by
        rw [getLast?_cons_of_ne_nil a (by simp), getLast?_cons_of_ne_nil b (by simp),
          getLast?_cons_of_ne_nil c (by simp), getLast?_cons_of_ne_nil d hrest]
      have i := ih hrest hdr (fun h => by
        have := h0 (hlast.trans h)
        simp at this)
      have hd4 : allDigits [d, c, b, a] := fun x hx => hd x (by
        simp only [List.mem_cons, List.mem_singleton, List.not_mem_nil, or_false] at hx
        rcases hx with rfl | rfl | rfl | rfl <;> simp)
      have hpad := padLeft_natChars [d, c, b, a] (by simp) hd4
      have hval : leVal [a, b, c, d] = decVal [d, c, b, a] := by
        rw [← decVal_reverse]; rfl
      simp only [chunk4, List.map_cons]
      rw [renderLimbs_cons (by simpa using chunk4_ne_nil hrest), i, intChars_natCast, hval]
      simp only [List.length_cons, List.length_nil] at hpad
      simp only [WIDTH]
      rw [hpad]
      simp
  | case2 => intro hne; exact absurd rfl hne
  | case3 l h1 h2 =>
    intro hne hd h0
    have hl : l.length ≤ 4 := by
      match l, h1 with
      | [], _ => simp
      | [_], _ => simp
      | [_, _], _ => simp
      | [_, _, _], _ => simp
      | a :: b :: c :: d :: rest, h => exact absurd rfl (h a b c d rest)
    have hc := canonicalRun_reverse hne hd h0
    rw [chunk4_short hne hl]
    simp only [List.map_cons, List.map_nil, renderLimbs_single, intChars_natCast]
    rw [← decVal_reverse, natChars_decVal hc]

theorem renderLimbs_groupLimbs {ds : List Char} (h : canonicalRun ds) :
    renderLimbs (groupLimbs ds) = ds := by
  obtain ⟨hne, hd, h0⟩ := h
  have := renderLimbs_chunk4 ds.reverse (by simpa using hne)
    (fun c hc => hd c (by simpa using hc))
    (fun hl => by
      rw [List.getLast?_reverse] at hl
      rw [h0 hl]; rfl)
  rw [groupLimbs_eq, this, List.reverse_reverse]

/-- The most significant limb read off a digit run that does not start with
`0` is not zero. -/
theorem chunk4_top_ne_zero (r : List Char) : r ≠ [] → allDigits r →
    r.getLast? ≠ some '0' →
    ((chunk4 r).map (fun g => ((leVal g : Nat) : Int))).getLast? ≠ some 0 := by
  induction r using chunk4.induct with
  | case1 a b c d rest ih =>
    intro hne hd h0
    by_cases hrest : rest = []
    · subst hrest
      have hc := canonicalRun_reverse hne hd (fun h => absurd h h0)
      have hp := decVal_pos hc (by simp)
      rw [decVal_reverse] at hp
      simp only [chunk4, List.map_cons, List.map_nil, List.getLast?_singleton, ne_eq,
        Option.some.injEq]
      omega
    · have hdr : allDigits rest := fun x hx => hd x (by simp [hx])
      have hlast : (a :: b :: c :: d :: rest).getLast? = rest.getLast? := by
        rw [getLast?_cons_of_ne_nil a (by simp), getLast?_cons_of_ne_nil b (by simp),
          getLast?_cons_of_ne_nil c (by simp), getLast?_cons_of_ne_nil d hrest]
      have i := ih hrest hdr (by rw [← hlast]; exact h0)
      simp only [chunk4, List.map_cons]
      rw [getLast?_cons_of_ne_nil _ (by simpa using chunk4_ne_nil hrest)]
      exact i
  | case2 => intro hne; exact absurd rfl hne
  | case3 l h1 h2 =>
    intro hne hd h0
    have hl : l.length ≤ 4 := by
      match l, h1 with
      | [], _ => simp
      | [_], _ => simp
      | [_, _], _ => simp
      | [_, _, _], _ => simp
      | a :: b :: c :: d :: rest, h => exact absurd rfl (h a b c d rest)
    have hc := canonicalRun_reverse hne hd (fun h => absurd h h0)
    have hp := decVal_pos hc (by
      intro h
      have := congrArg List.reverse h
      simp only [List.reverse_reverse] at this
      rw [this] at h0
      simp at h0)
    rw [decVal_reverse] at hp
    rw [chunk4_short hne hl]
    simp only [List.map_cons, List.map_nil, List.getLast?_singleton, ne_eq, Option.some.injEq]
    omega

/-- The limbs read off a digit run without leading zeros are already
normalised. -/
theorem groupLimbs_valid {ds : List Char} (h : canonicalRun ds) (isNeg : Bool)
    (hs : isNeg = true → ds ≠ ['0']) :
    Valid { digits := groupLimbs ds, negative := isNeg } := by
  refine ⟨groupLimbs_ne_nil h.1, limbsOk_groupLimbs h.2.1, ?_, ?_⟩
  · intro hl
    by_cases hz : ds = ['0']
    · show groupLimbs ds = [0]
      rw [hz]; decide
    · exfalso
      have hh : ds.head? ≠ some '0' := fun hh => hz (h.2.2 hh)
      have := chunk4_top_ne_zero ds.reverse (by simpa using h.1)
        (fun c hc => h.2.1 c (by simpa using hc))
        (by rw [List.getLast?_reverse]; exact hh)
      rw [← groupLimbs_eq] at this
      exact this hl
  · intro hz
    have hm : mag (groupLimbs ds) = 0 := by
      have : groupLimbs ds = [0] := hz
      rw [this]; simp [mag]
    rw [mag_groupLimbs] at hm
    cases isNeg with
    | false => rfl
    | true =>
      have := decVal_pos h (hs rfl)
      omega

/-! ## The iteration bounds of the loops are never reached -/

theorem natAbs_tdiv_BASE_lt {c : Int} (h : c ≠ 0) : (c.tdiv BASE).natAbs < c.natAbs := by
  rw [Int.natAbs_tdiv]
  have h1 : BASE.natAbs = 10000 := by decide
  have h2 : c.natAbs.div BASE.natAbs = c.natAbs / 10000 := by rw [h1]; rfl
  rw [h2]
  omega

/-- The carry loop does the same with every bound of at least `|carry|`
iterations: the bound `carry.natAbs` used by `addLoopRest` and `mul` is never
the reason why the loop stops. -/
theorem carryTail_fuel (f1 : Nat) : ∀ (f2 : Nat) (c : Int), c.natAbs ≤ f1 → c.natAbs ≤ f2 →
    carryTail f1 c = carryTail f2 c := by
  induction f1 with
  | zero =>
    intro f2 c h1 _
    have hc : c = 0 := by omega
    subst hc
    cases f2 <;> simp [carryTail]
  | succ f1 ih =>
    intro f2 c h1 h2
    cases f2 with
    | zero =>
      have hc : c = 0 := by omega
      subst hc
      simp [carryTail]
    | succ f2 =>
      simp only [carryTail]
      split
      · next hc =>
        have := natAbs_tdiv_BASE_lt hc
        rw [ih f2 (c.tdiv BASE) (by omega) (by omega)]
      · rfl

/-- When the loop of `carryTail` stops within its bound, the carry is used up:
the limbs pushed denote the whole carry. -/
theorem carryTail_mag (fuel : Nat) : ∀ c : Int, c.natAbs ≤ fuel →
    mag (carryTail fuel c) = c := by
  induction fuel with
  | zero =>
    intro c h
    have hc : c = 0 := by omega
    subst hc
    simp [carryTail, mag]
  | succ fuel ih =>
    intro c h
    simp only [carryTail]
    split
    · next hc =>
      have := natAbs_tdiv_BASE_lt hc
      simp only [mag]
      rw [ih (c.tdiv BASE) (by omega)]
      have := Int.tmod_add_tdiv c BASE
      linarith
    · next hc =>
      have : c = 0 := by simpa using hc
      simp [mag, this]

/-- The loop of `BigInt(long long)` on a non-negative number, with any bound
above the number: the limbs are in range, denote the number, and the most
significant one is zero only for the single limb `0`. -/
theorem fromLoop_spec (fuel : Nat) : ∀ n : Int, 0 ≤ n → n.natAbs < fuel →
    limbsOk (fromLoop fuel n) ∧ mag (fromLoop fuel n) = n ∧ fromLoop fuel n ≠ [] ∧
    ((fromLoop fuel n).getLast? = some 0 → fromLoop fuel n = [0]) := by
  induction fuel with
  | zero => intro n _ h; omega
  | succ fuel ih =>
    intro n h0 hf
    simp only [fromLoop, tmod_BASE h0, tdiv_BASE h0]
    split
    · next hq =>
      obtain ⟨i1, i2, i3, i4⟩ := ih (n / 10000) (by omega) (by omega)
      refine ⟨limbsOk_cons.mpr ⟨⟨by omega, by simp only [BASE]; omega⟩, i1⟩, ?_, by simp, ?_⟩
      · simp only [mag, i2, BASE]; omega
      · intro hl
        rw [getLast?_cons_of_ne_nil _ i3] at hl
        have := i4 hl
        rw [this] at i2
        simp only [mag, mul_zero, add_zero] at i2
        omega
    · next hq =>
      refine ⟨limbsOk_cons.mpr ⟨⟨by omega, by simp only [BASE]; omega⟩, limbsOk_nil⟩, ?_,
        by simp, ?_⟩
      · simp only [mag, mul_zero, add_zero]; omega
      · intro hl
        simp only [List.getLast?_singleton, Option.some.injEq] at hl
        rw [hl]

/-- The constructor `BigInt(long long)` on every 64-bit integer except the most
negative one: a valid value denoting the argument, flagged negative exactly
when the argument is negative. -/
theorem fromLongLong_spec (n : Int) (h0 : -9223372036854775808 < n)
    (h1 : n ≤ 9223372036854775807) :
    Valid (fromLongLong n) ∧ value (fromLongLong n) = n ∧
    (fromLongLong n).negative = decide (n < 0) ∧ mag (fromLongLong n).digits = |n| := by
  by_cases hn : n < 0
  · have hw : wrap64 (-n) = -n := wrap64_id (by omega) (by omega)
    obtain ⟨i1, i2, i3, i4⟩ := fromLoop_spec ((-n).natAbs + 1) (-n) (by omega) (by omega)
    have hd : (fromLongLong n).digits = fromLoop ((-n).natAbs + 1) (-n) := by
      simp [fromLongLong, hn, hw]
    have hs : (fromLongLong n).negative = true := by simp [fromLongLong, hn]
    refine ⟨⟨by rw [hd]; exact i3, by rw [hd]; exact i1, by rw [hd]; exact i4, ?_⟩, ?_, ?_, ?_⟩
    · intro hz
      rw [hd] at hz
      rw [hz] at i2
      simp only [mag, mul_zero, add_zero] at i2
      omega
    · simp only [value, hs, hd, i2, if_true]; omega
    · simp [hs, hn]
    · rw [hd, i2, abs_of_neg hn]
  · have hn0 : 0 ≤ n := by omega
    obtain ⟨i1, i2, i3, i4⟩ := fromLoop_spec (n.natAbs + 1) n hn0 (by omega)
    have hd : (fromLongLong n).digits = fromLoop (n.natAbs + 1) n := by
      simp [fromLongLong, hn]
    have hs : (fromLongLong n).negative = false := by simp [fromLongLong, hn]
    refine ⟨⟨by rw [hd]; exact i3, by rw [hd]; exact i1, by rw [hd]; exact i4, fun _ => hs⟩,
      ?_, ?_, ?_⟩
    · simp only [value, hs, hd, i2, Bool.false_eq_true, if_false]
    · simp [hs, hn]
    · rw [hd, i2, abs_of_nonneg hn0]

/-! ## What the comparison and the product do with the sign -/

theorem lt_eq_absLess (a b : BigInt) : lt a b = absLess a b := rfl

/-- On valid operands `operator<` is the strict order of the magnitudes. -/
theorem lt_iff_mag {a b : BigInt} (ha : Valid a) (hb : Valid b) :
    lt a b = true ↔ mag a.digits < mag b.digits := by
  rw [lt_eq_absLess]; exact absLess_iff ha hb

/-- Whatever the operands, a product returned by `operator*` is flagged
non-negative. -/
theorem mul_negative {a b r : BigInt} (h : mul a b = some r) : r.negative = false := by
  unfold mul at h
  split at h
  · cases h
  · simp only [Option.some.injEq] at h
    rw [← h]
    have hz : zero.negative = false := by decide
    simp [removeLeadingZeros, hz]

/-! ## The recursion of `karatsubaMultiply` ends -/

theorem addExtend_length (w : Int → Int) (xs ys : List Int) :
    (addExtend w xs ys).length = max xs.length ys.length := by
  induction xs generalizing ys with
  | nil => simp [addExtend]
  | cons x xs ih =>
    cases ys with
    | nil => simp [addExtend]
    | cons y ys =>
      simp only [addExtend, List.length_cons, ih]
      omega

/-- Once the longer operand comes first, a depth bound above its length is
enough for `karatsubaFuel` to return. -/
theorem karatsubaFuel_returns (w : Int → Int) (fuel : Nat) : ∀ a b : List Int,
    b.length ≤ a.length → a.length ≤ fuel → ∃ r, karatsubaFuel w (fuel + 1) a b = some r := by
  induction fuel with
  | zero =>
    intro a b hba ha
    refine ⟨[], ?_⟩
    rw [karatsubaFuel]
    simp only [if_neg (by omega : ¬ a.length < b.length)]
    rw [if_pos (Or.inl (by omega))]
  | succ fuel ih =>
    intro a b hba ha
    rw [karatsubaFuel]
    simp only [if_neg (by omega : ¬ a.length < b.length)]
    split
    · exact ⟨_, rfl⟩
    · next h0 =>
      split
      · exact ⟨_, rfl⟩
      · next h32 =>
        obtain ⟨r1, e1⟩ := ih (a.take (a.length / 2)) (b.take (min b.length (a.length / 2)))
          (by simp only [List.length_take]; omega) (by simp only [List.length_take]; omega)
        obtain ⟨r2, e2⟩ := ih (a.drop (a.length / 2)) (b.drop (min b.length (a.length / 2)))
          (by simp only [List.length_drop]; omega) (by simp only [List.length_drop]; omega)
        obtain ⟨r3, e3⟩ := ih
          (addExtend w (a.take (a.length / 2)) (a.drop (a.length / 2)))
          (addExtend w (b.take (min b.length (a.length / 2)))
            (b.drop (min b.length (a.length / 2))))
          (by simp only [addExtend_length, List.length_take, List.length_drop]; omega)
          (by simp only [addExtend_length, List.length_take, List.length_drop]; omega)
        simp only [e1, e2, e3]
        exact ⟨_, rfl⟩

/-- The function `karatsubaMultiply` always returns: its depth bound is never
reached. -/
theorem karatsubaMultiply_returns (a b : List Int) : ∃ r, karatsubaMultiply a b = some r := by
  unfold karatsubaMultiply
  by_cases h : a.length < b.length
  · obtain ⟨r, hr⟩ := karatsubaFuel_returns wrap32 (a.length + b.length) b a (by omega) (by omega)
    refine ⟨r, ?_⟩
    rw [karatsubaFuel]
    simp only [if_pos h]
    exact hr
  · exact karatsubaFuel_returns wrap32 (a.length + b.length + 1) a b (by omega) (by omega)

/-- The operator `operator*` always returns. -/
theorem mul_returns (a b : BigInt) : ∃ r, mul a b = some r := by
  obtain ⟨raw, h⟩ := karatsubaMultiply_returns a.digits b.digits
  unfold mul
  rw [h]
  exact ⟨_, rfl⟩

/-! ## Further facts about negation and division -/

theorem valid_value_zero_iff {a : BigInt} (ha : Valid a) : value a = 0 ↔ a.digits = [0] := by
  constructor
  · intro h
    apply valid_mag_zero ha
    unfold value at h
    split at h <;> omega
  · intro h
    unfold value
    rw [h]
    simp [mag]

theorem neg_neg_of_valid {a : BigInt} (ha : Valid a) : neg (neg a) = a := by
  by_cases h0 : a.digits = [0]
  · have h1 : neg a = a := by unfold neg; simp [h0]
    rw [h1, h1]
  · have h1 : neg a = { a with negative := !a.negative } := by unfold neg; simp [h0]
    rw [h1]
    unfold neg
    cases a with
    | mk ds ng =>
      have h2 : ds ≠ [0] := h0
      simp [h2]

/-- The value of the canonical zero. -/
theorem valid_zero_of_value {r : BigInt} (hr : Valid r) (h : value r = 0) :
    r = { digits := [0], negative := false } :=
  valid_ext hr (by decide) (by rw [h]; decide)

theorem div_congr {a b : BigInt} (h : a.digits = b.digits) (d : Int) : div a d = div b d := by
  unfold div; rw [h]

/-- The method `operator/` on a valid dividend of either sign and a positive
`int` divisor: the sign flag of the dividend is not read. -/
theorem div_mag_spec {a : BigInt} (ha : Valid a) {d : Int}
    (hd0 : 0 < d) (hd1 : d ≤ 2147483647) :
    ∃ r, div a d = some r ∧ Valid r ∧ r.negative = false ∧
      mag r.digits = mag a.digits / d := by
  obtain ⟨q, e1, e2, e3, e4⟩ := divLoop_spec d hd0 hd1 a.digits.reverse
    (limbsOk_reverse.mpr ha.2.1) 0 (le_refl 0) hd0
  have hz : zero.negative = false := by decide
  refine ⟨removeLeadingZeros { zero with digits := q.reverse }, ?_, ?_, ?_, ?_⟩
  · simp only [div, e1]
  · apply removeLeadingZeros_valid
    · have := valid_length_pos ha
      intro h0
      simp only [List.reverse_eq_nil_iff] at h0
      rw [h0] at e3
      simp at e3
      omega
    · exact limbsOk_reverse.mpr e2
  · simp [removeLeadingZeros, hz]
  · rw [removeLeadingZeros_mag]
    simp only [e4, zero_mul, zero_add, List.reverse_reverse]

/-- With a depth bound of one call `operator+` returns on operands of equal
sign. -/
theorem add_same_sign_returns {a b : BigInt} (hs : a.negative = b.negative) (fuel : Nat) :
    ∃ r, add (fuel + 1) a b = some r := by
  rw [add, if_pos hs]
  exact ⟨_, rfl⟩

/-! ## The size of the vector returned by `karatsubaMultiply` -/

theorem kLen_zero {n m : Nat} (h : n = 0 ∨ m = 0) : kLen n m = 0 := by
  rw [kLen, if_pos h]

theorem kLen_base {n m : Nat} (hn : 0 < n) (hm : 0 < m) (h : n ≤ 32) : kLen n m = n + m := by
  rw [kLen, if_neg (by omega), if_pos h]

theorem kLen_rec {n m : Nat} (hm : 0 < m) (h : 32 < n) :
    kLen n m = kLen (n / 2) (min m (n / 2)) + 2 * (n - n / 2) := by
  rw [kLen, if_neg (by omega), if_neg (by omega)]

theorem kLen_bounds (n : Nat) : ∀ m, 1 ≤ m → m ≤ n → n + m ≤ kLen n m ∧ kLen n m ≤ 2 * n := by
  induction n using Nat.strong_induction_on with
  | _ n ih =>
    intro m hm hmn
    by_cases h32 : n ≤ 32
    · rw [kLen_base (by omega) (by omega) h32]; omega
    · rw [kLen_rec (by omega) (by omega)]
      have := ih (n / 2) (by omega) (min m (n / 2)) (by omega) (by omega)
      omega

theorem kLen_mono_right (n : Nat) : ∀ m m', m ≤ m' → m' ≤ n → kLen n m ≤ kLen n m' := by
  induction n using Nat.strong_induction_on with
  | _ n ih =>
    intro m m' h1 h2
    by_cases hm : m = 0
    · rw [kLen_zero (Or.inr hm)]; omega
    · by_cases h32 : n ≤ 32
      · rw [kLen_base (n := n) (m := m) (by omega) (by omega) h32,
          kLen_base (n := n) (m := m') (by omega) (by omega) h32]
        omega
      · rw [kLen_rec (n := n) (m := m) (by omega) (by omega),
          kLen_rec (n := n) (m := m') (by omega) (by omega)]
        have := ih (n / 2) (by omega) (min m (n / 2)) (min m' (n / 2)) (by omega) (by omega)
        omega

theorem kLen_mono_left (n : Nat) : ∀ m, m ≤ n → kLen n m ≤ kLen (n + 1) m := by
  induction n using Nat.strong_induction_on with
  | _ n ih =>
    intro m hmn
    by_cases hm : m = 0
    · rw [kLen_zero (Or.inr hm)]; omega
    · by_cases h31 : n + 1 ≤ 32
      · rw [kLen_base (n := n) (m := m) (by omega) (by omega) (by omega),
          kLen_base (n := n + 1) (m := m) (by omega) (by omega) h31]
        omega
      · by_cases h32 : n = 32
        · subst h32
          rw [kLen_base (n := 32) (m := m) (by omega) (by omega) (by omega),
            kLen_rec (n := 32 + 1) (m := m) (by omega) (by omega),
            kLen_base (n := (32 + 1) / 2) (by omega) (by omega) (by omega)]
          omega
        · rw [kLen_rec (n := n) (m := m) (by omega) (by omega),
            kLen_rec (n := n + 1) (m := m) (by omega) (by omega)]
          rcases Nat.even_or_odd n with ⟨h, hh⟩ | ⟨h, hh⟩
          · have e1 : n / 2 = h := by omega
            have e2 : (n + 1) / 2 = h := by omega
            rw [e1, e2]; omega
          · have e1 : n / 2 = h := by omega
            have e2 : (n + 1) / 2 = h + 1 := by omega
            rw [e1, e2]
            have s1 := ih h (by omega) (min m h) (by omega)
            have s2 := kLen_mono_right (h + 1) (min m h) (min m (h + 1)) (by omega) (by omega)
            omega

theorem kSize_comm (n m : Nat) : kSize n m = kSize m n := by
  unfold kSize
  by_cases h1 : n < m
  · rw [if_pos h1, if_neg (by omega)]
  · by_cases h2 : m < n
    · rw [if_neg h1, if_pos h2]
    · have : n = m := by omega
      subst this; rfl

theorem kSize_of_le {n m : Nat} (h : m ≤ n) : kSize n m = kLen n m := by
  unfold kSize; rw [if_neg (by omega)]

/-- The four size relations behind the index arithmetic of the recursive
case, for operand sizes `1 ≤ m ≤ n`, `32 < n`, and `k = n / 2`. -/
theorem kLen_recursive_case {n m : Nat} (hm : 1 ≤ m) (hmn : m ≤ n) (hn : 32 < n) :
    kLen (n / 2) (min m (n / 2))
      ≤ kLen (n - n / 2) (max (min m (n / 2)) (m - min m (n / 2))) ∧
    kLen (n - n / 2) (m - min m (n / 2))
      ≤ kLen (n - n / 2) (max (min m (n / 2)) (m - min m (n / 2))) ∧
    kLen (n - n / 2) (max (min m (n / 2)) (m - min m (n / 2))) + n / 2
      ≤ kLen (n / 2) (min m (n / 2)) + 2 * (n - n / 2) ∧
    kLen (n - n / 2) (m - min m (n / 2)) + 2 * (n / 2)
      ≤ kLen (n / 2) (min m (n / 2)) + 2 * (n - n / 2) := by
  have b1 := kLen_bounds (n / 2) (min m (n / 2)) (by omega) (by omega)
  have b3 := kLen_bounds (n - n / 2) (max (min m (n / 2)) (m - min m (n / 2)))
    (by omega) (by omega)
  have m2 := kLen_mono_right (n - n / 2) (m - min m (n / 2))
    (max (min m (n / 2)) (m - min m (n / 2))) (by omega) (by omega)
  have m1 := kLen_mono_right (n - n / 2) (min m (n / 2))
    (max (min m (n / 2)) (m - min m (n / 2))) (by omega) (by omega)
  have step : kLen (n / 2) (min m (n / 2)) ≤ kLen (n - n / 2) (min m (n / 2)) := by
    rcases Nat.even_or_odd n with ⟨h, hh⟩ | ⟨h, hh⟩
    · have e1 : n / 2 = h := by omega
      have e2 : n - n / 2 = h := by omega
      rw [e2, e1]
    · have e1 : n / 2 = h := by omega
      have e2 : n - n / 2 = h + 1 := by omega
      rw [e2, e1]
      exact kLen_mono_left h (min m h) (by omega)
  refine ⟨by omega, m2, by omega, ?_⟩
  by_cases hk : m ≤ n / 2
  · have : m - min m (n / 2) = 0 := by omega
    rw [this, kLen_zero (Or.inr rfl)]
    omega
  · have b2 := kLen_bounds (n - n / 2) (m - min m (n / 2)) (by omega) (by omega)
    omega

/-! ## The vector operations of `karatsubaMultiply` as ring operations

Limb vectors are read as polynomials in `x` over a commutative ring `S`,
through a ring homomorphism `ψ` that does not see the wrap `w`
(`ψ (w d) = ψ d`): the identity wrap with `S` the integers' own polynomials,
or the 32-bit wrap with `S` the polynomials over the integers modulo `2^32`. -/

theorem horner_replicate_zero {S : Type} [CommRing S] (x : S) (ψ : Int →+* S) (n : Nat) :
    horner x ψ (List.replicate n 0) = 0 := by
  induction n with
  | zero => rfl
  | succ n ih => simp [List.replicate_succ, horner, ih]

theorem horner_append {S : Type} [CommRing S] (x : S) (ψ : Int →+* S) (xs ys : List Int) :
    horner x ψ (xs ++ ys) = horner x ψ xs + x ^ xs.length * horner x ψ ys := by
  induction xs with
  | nil => simp [horner]
  | cons d ds ih =>
    show ψ d + x * horner x ψ (ds ++ ys) = _
    rw [ih]
    simp only [horner, List.length_cons, pow_succ]
    ring

theorem horner_take_drop {S : Type} [CommRing S] (x : S) (ψ : Int →+* S) (l : List Int)
    (k : Nat) (hk : k ≤ l.length) :
    horner x ψ l = horner x ψ (l.take k) + x ^ k * horner x ψ (l.drop k) := by
  have h := horner_append x ψ (l.take k) (l.drop k)
  rw [List.take_append_drop, List.length_take, Nat.min_eq_left hk] at h
  exact h

theorem addAtIndex_length (w : Int → Int) (res : List Int) (idx : Nat) (v : Int) :
    (addAtIndex w res idx v).length = res.length := by
  induction res generalizing idx with
  | nil => rfl
  | cons r rs ih =>
    cases idx with
    | zero => simp [addAtIndex]
    | succ i => simp [addAtIndex, ih]

theorem addAtIndex_horner {S : Type} [CommRing S] (x : S) (ψ : Int →+* S) (w : Int → Int)
    (hw : ∀ d, ψ (w d) = ψ d) (res : List Int) (idx : Nat) (v : Int) (h : idx < res.length) :
    horner x ψ (addAtIndex w res idx v) = horner x ψ res + ψ v * x ^ idx := by
  induction res generalizing idx with
  | nil => simp at h
  | cons r rs ih =>
    cases idx with
    | zero => simp [addAtIndex, horner, hw]; ring
    | succ i =>
      simp only [addAtIndex, horner, ih i (by simpa using h), pow_succ]
      ring

theorem baseInner_length (w : Int → Int) (ai : Int) (bs : List Int) (pos : Nat)
    (res : List Int) : (baseInner w ai bs pos res).length = res.length := by
  induction bs generalizing pos res with
  | nil => rfl
  | cons bj bs ih => simp [baseInner, ih, addAtIndex_length]

theorem baseInner_horner {S : Type} [CommRing S] (x : S) (ψ : Int →+* S) (w : Int → Int)
    (hw : ∀ d, ψ (w d) = ψ d) (ai : Int) (bs : List Int) (pos : Nat) (res : List Int)
    (h : pos + bs.length ≤ res.length) :
    horner x ψ (baseInner w ai bs pos res)
      = horner x ψ res + ψ ai * x ^ pos * horner x ψ bs := by
  induction bs generalizing pos res with
  | nil => simp [baseInner, horner]
  | cons bj bs ih =>
    simp only [List.length_cons] at h
    rw [baseInner, ih (pos + 1) _ (by rw [addAtIndex_length]; omega),
      addAtIndex_horner x ψ w hw _ _ _ (by omega), hw]
    simp only [horner, map_mul, pow_succ]
    ring

theorem baseOuter_length (w : Int → Int) (b : List Int) (rest : List Int) (i : Nat)
    (res : List Int) : (baseOuter w b rest i res).length = res.length := by
  induction rest generalizing i res with
  | nil => rfl
  | cons ai rest ih => simp [baseOuter, ih, baseInner_length]

theorem baseOuter_horner {S : Type} [CommRing S] (x : S) (ψ : Int →+* S) (w : Int → Int)
    (hw : ∀ d, ψ (w d) = ψ d) (b : List Int) (rest : List Int) (i : Nat) (res : List Int)
    (h : i + rest.length + b.length ≤ res.length + 1) :
    horner x ψ (baseOuter w b rest i res)
      = horner x ψ res + x ^ i * horner x ψ rest * horner x ψ b := by
  induction rest generalizing i res with
  | nil => simp [baseOuter, horner]
  | cons ai rest ih =>
    simp only [List.length_cons] at h
    rw [baseOuter, ih (i + 1) _ (by rw [baseInner_length]; omega),
      baseInner_horner x ψ w hw _ _ _ _ (by omega)]
    simp only [horner, pow_succ]
    ring

theorem addExtend_horner {S : Type} [CommRing S] (x : S) (ψ : Int →+* S) (w : Int → Int)
    (hw : ∀ d, ψ (w d) = ψ d) (xs ys : List Int) :
    horner x ψ (addExtend w xs ys) = horner x ψ xs + horner x ψ ys := by
  induction xs generalizing ys with
  | nil => simp [addExtend, horner]
  | cons a xs ih =>
    cases ys with
    | nil => simp [addExtend, horner]
    | cons c ys =>
      simp only [addExtend, horner, ih, hw, map_add]
      ring

theorem subFrom_length (w : Int → Int) (r z : List Int) :
    (subFrom w r z).length = r.length := by
  induction r generalizing z with
  | nil => cases z <;> simp [subFrom]
  | cons a r ih =>
    cases z with
    | nil => simp [subFrom]
    | cons c z => simp [subFrom, ih]

theorem subFrom_horner {S : Type} [CommRing S] (x : S) (ψ : Int →+* S) (w : Int → Int)
    (hw : ∀ d, ψ (w d) = ψ d) (r z : List Int) (h : z.length ≤ r.length) :
    horner x ψ (subFrom w r z) = horner x ψ r - horner x ψ z := by
  induction r generalizing z with
  | nil =>
    have : z = [] := by simpa using h
    subst this
    simp [subFrom, horner]
  | cons a r ih =>
    cases z with
    | nil => simp [subFrom, horner]
    | cons c z =>
      simp only [subFrom, horner, ih z (by simpa using h), hw, map_sub]
      ring

theorem addAt_length (w : Int → Int) (off : Nat) (res z : List Int) :
    (addAt w off res z).length = res.length := by
  induction off generalizing res with
  | zero =>
    induction res generalizing z with
    | nil => cases z <;> simp [addAt]
    | cons a res ih =>
      cases z with
      | nil => simp [addAt]
      | cons c z => simp [addAt, ih]
  | succ off ih =>
    cases res with
    | nil => simp [addAt]
    | cons a res => simp [addAt, ih]

theorem addAt_zero_horner {S : Type} [CommRing S] (x : S) (ψ : Int →+* S) (w : Int → Int)
    (hw : ∀ d, ψ (w d) = ψ d) (res z : List Int) (h : z.length ≤ res.length) :
    horner x ψ (addAt w 0 res z) = horner x ψ res + horner x ψ z := by
  induction res generalizing z with
  | nil =>
    have : z = [] := by simpa using h
    subst this
    simp [addAt, horner]
  | cons a res ih =>
    cases z with
    | nil => simp [addAt, horner]
    | cons c z =>
      simp only [addAt, horner, ih z (by simpa using h), hw, map_add]
      ring

theorem addAt_horner {S : Type} [CommRing S] (x : S) (ψ : Int →+* S) (w : Int → Int)
    (hw : ∀ d, ψ (w d) = ψ d) (off : Nat) (res z : List Int)
    (h : off + z.length ≤ res.length) :
    horner x ψ (addAt w off res z) = horner x ψ res + x ^ off * horner x ψ z := by
  induction off generalizing res with
  | zero =>
    rw [addAt_zero_horner x ψ w hw res z (by omega)]
    simp
  | succ off ih =>
    cases res with
    | nil =>
      have : z = [] := by
        simp only [List.length_nil] at h
        exact List.length_eq_zero.mp (by omega)
      subst this
      simp [addAt, horner]
    | cons a res =>
      simp only [List.length_cons] at h
      simp only [addAt, horner, ih res (by omega), pow_succ]
      ring

/-- Whatever `karatsubaFuel` returns is, read as a polynomial, the product of
its operands, and its number of entries depends on the operand sizes alone. -/
theorem karatsubaFuel_spec {S : Type} [CommRing S] (x : S) (ψ : Int →+* S) (w : Int → Int)
    (hw : ∀ d, ψ (w d) = ψ d) (fuel : Nat) : ∀ (a b r : List Int),
    karatsubaFuel w fuel a b = some r →
      horner x ψ r = horner x ψ a * horner x ψ b ∧ r.length = kSize a.length b.length := by
  induction fuel with
  | zero => intro a b r h; simp [karatsubaFuel] at h
  | succ fuel ih =>
    intro a b r h
    rw [karatsubaFuel] at h
    by_cases hlt : a.length < b.length
    · simp only [if_pos hlt] at h
      obtain ⟨i1, i2⟩ := ih b a r h
      exact ⟨by rw [i1, mul_comm], by rw [i2, kSize_comm]⟩
    · simp only [if_neg hlt] at h
      by_cases h0 : a.length = 0 ∨ b.length = 0
      · simp only [if_pos h0, Option.some.injEq] at h
        subst h
        refine ⟨?_, ?_⟩
        · rcases h0 with h0 | h0
          · rw [List.length_eq_zero.mp h0]; simp [horner]
          · rw [List.length_eq_zero.mp h0]; simp [horner]
        · rw [kSize_of_le (by omega), kLen_zero h0]; rfl
      · simp only [if_neg h0] at h
        have hn : 0 < a.length := by omega
        have hm : 0 < b.length := by omega
        by_cases h32 : a.length ≤ 32
        · simp only [if_pos h32, Option.some.injEq] at h
          subst h
          refine ⟨?_, ?_⟩
          · rw [baseOuter_horner x ψ w hw _ _ _ _ (by simp), horner_replicate_zero]
            simp
          · rw [baseOuter_length, List.length_replicate, kSize_of_le (by omega),
              kLen_base hn hm h32]
        · simp only [if_neg h32] at h
          cases e1 : karatsubaFuel w fuel (a.take (a.length / 2))
              (b.take (min b.length (a.length / 2))) with
          | none => simp [e1] at h
          | some a1b1 =>
          cases e2 : karatsubaFuel w fuel (a.drop (a.length / 2))
              (b.drop (min b.length (a.length / 2))) with
          | none => simp [e1, e2] at h
          | some a2b2 =>
          cases e3 : karatsubaFuel w fuel
              (addExtend w (a.take (a.length / 2)) (a.drop (a.length / 2)))
              (addExtend w (b.take (min b.length (a.length / 2)))
                (b.drop (min b.length (a.length / 2)))) with
          | none => simp [e1, e2, e3] at h
          | some r0 =>
          simp only [e1, e2, e3, Option.some.injEq] at h
          subst h
          obtain ⟨p1, l1⟩ := ih _ _ _ e1
          obtain ⟨p2, l2⟩ := ih _ _ _ e2
          obtain ⟨p3, l3⟩ := ih _ _ _ e3
          simp only [List.length_take, List.length_drop, addExtend_length] at l1 l2 l3
          have ea : min (a.length / 2) a.length = a.length / 2 := by omega
          have eb : min (min b.length (a.length / 2)) b.length
              = min b.length (a.length / 2) := by omega
          have ec : max (a.length / 2) (a.length - a.length / 2)
              = a.length - a.length / 2 := by omega
          rw [ea, eb, kSize_of_le (by omega)] at l1
          rw [kSize_of_le (by omega)] at l2
          rw [ea, eb, ec, kSize_of_le (by omega)] at l3
          obtain ⟨q1, q2, q3, q4⟩ := kLen_recursive_case (n := a.length) (m := b.length)
            hm (by omega) (by omega)
          have hA := horner_take_drop x ψ a (a.length / 2) (by omega)
          have hB : horner x ψ b = horner x ψ (b.take (min b.length (a.length / 2)))
              + x ^ (a.length / 2) * horner x ψ (b.drop (min b.length (a.length / 2))) := by
            by_cases hk : b.length ≤ a.length / 2
            · have e : min b.length (a.length / 2) = b.length := by omega
              rw [e, List.take_length, List.drop_length]
              simp [horner]
            · have e : min b.length (a.length / 2) = a.length / 2 := by omega
              rw [e]
              exact horner_take_drop x ψ b (a.length / 2) (by omega)
          refine ⟨?_, ?_⟩
          · rw [addAt_horner x ψ w hw _ _ _ (by
                rw [addAt_length, addAt_length, List.length_replicate]; omega),
              addAt_horner x ψ w hw _ _ _ (by
                rw [addAt_length, List.length_replicate, subFrom_length, subFrom_length]
                omega),
              addAt_horner x ψ w hw _ _ _ (by rw [List.length_replicate]; omega),
              horner_replicate_zero,
              subFrom_horner x ψ w hw _ _ (by rw [subFrom_length]; omega),
              subFrom_horner x ψ w hw _ _ (by omega),
              p1, p2, p3, addExtend_horner x ψ w hw, addExtend_horner x ψ w hw, hA, hB]
            ring
          · rw [addAt_length, addAt_length, addAt_length, List.length_replicate, l1,
              kSize_of_le (by omega), kLen_rec hm (by omega)]

/-- For every operand pair a depth bound two above both sizes is enough for
`karatsubaFuel` to return, whatever the wrap. -/
theorem karatsubaFuel_returns_any (w : Int → Int) (fuel : Nat) (a b : List Int)
    (ha : a.length + 2 ≤ fuel) (hb : b.length + 2 ≤ fuel) :
    ∃ r, karatsubaFuel w fuel a b = some r := by
  obtain ⟨f, rfl⟩ : ∃ f, fuel = f + 2 := ⟨fuel - 2, by omega⟩
  by_cases h : a.length < b.length
  · obtain ⟨r, hr⟩ := karatsubaFuel_returns w f b a (by omega) (by omega)
    refine ⟨r, ?_⟩
    rw [karatsubaFuel]
    simp only [if_pos h]
    exact hr
  · exact karatsubaFuel_returns w (f + 1) a b (by omega) (by omega)

/-- The entries of a limb vector are the coefficients of its polynomial. -/
theorem horner_coeff {R : Type} [CommRing R] (φ : Int →+* R) (l : List Int) (p : Nat) :
    (horner (Polynomial.X : Polynomial R) ((Polynomial.C : R →+* Polynomial R).comp φ) l).coeff p
      = φ (l.getD p 0) := by
  induction l generalizing p with
  | nil => simp [horner]
  | cons d ds ih =>
    cases p with
    | zero => simp [horner]
    | succ p =>
      simp only [horner, Polynomial.coeff_add, Polynomial.coeff_X_mul, ih, RingHom.comp_apply,
        Polynomial.coeff_C_succ, zero_add, List.getD_cons_succ]

/-- The coefficients of a product of limb polynomials over the integers are
the schoolbook convolution of the limb vectors. -/
theorem horner_mul_coeff (a b : List Int) (p : Nat) :
    (horner (Polynomial.X : Polynomial Int)
        ((Polynomial.C : Int →+* Polynomial Int).comp (RingHom.id Int)) a
      * horner (Polynomial.X : Polynomial Int)
        ((Polynomial.C : Int →+* Polynomial Int).comp (RingHom.id Int)) b).coeff p
      = convAt a b p := by
  rw [Polynomial.coeff_mul,
    Finset.Nat.sum_antidiagonal_eq_sum_range_succ (fun i j =>
      (horner (Polynomial.X : Polynomial Int)
        ((Polynomial.C : Int →+* Polynomial Int).comp (RingHom.id Int)) a).coeff i
      * (horner (Polynomial.X : Polynomial Int)
        ((Polynomial.C : Int →+* Polynomial Int).comp (RingHom.id Int)) b).coeff j) p]
  unfold convAt
  apply Finset.sum_congr rfl
  intro i _
  rw [horner_coeff, horner_coeff]
  rfl

/-- Beyond position `len a + len b - 2` the schoolbook convolution is zero. -/
theorem convAt_eq_zero (a b : List Int) (p : Nat) (h : a.length + b.length ≤ p + 1) :
    convAt a b p = 0 := by
  unfold convAt
  apply Finset.sum_eq_zero
  intro i hi
  rw [Finset.mem_range] at hi
  by_cases hia : i < a.length
  · have : b.getD (p - i) 0 = 0 := List.getD_eq_default _ _ (by omega)
    rw [this, mul_zero]
  · have : a.getD i 0 = 0 := List.getD_eq_default _ _ (by omega)
    rw [this, zero_mul]

/-- The exact routine against the schoolbook convolution. -/
theorem karatsubaFuel_exact (fuel : Nat) (a b r : List Int)
    (h : karatsubaFuel id fuel a b = some r) :
    (∀ p, r.getD p 0 = convAt a b p) ∧ r.length = kSize a.length b.length := by
  obtain ⟨s1, s2⟩ := karatsubaFuel_spec (Polynomial.X : Polynomial Int)
    ((Polynomial.C : Int →+* Polynomial Int).comp (RingHom.id Int)) id (fun _ => rfl)
    fuel a b r h
  refine ⟨fun p => ?_, s2⟩
  have := congrArg (fun q => Polynomial.coeff q p) s1
  simp only [horner_coeff, horner_mul_coeff, RingHom.id_apply] at this
  exact this

/-! ## The 32-bit routine does not depend on the order of its operands -/

theorem wrap32_idem (d : Int) : wrap32 (wrap32 d) = wrap32 d := by
  unfold wrap32; omega

theorem wrap32_zero : wrap32 0 = 0 := by decide

theorem wrap32_cast (d : Int) : ((wrap32 d : Int) : ZMod 4294967296) = (d : ZMod 4294967296) := by
  rw [ZMod.intCast_eq_intCast_iff_dvd_sub]
  refine ⟨(d + 2147483648) / 4294967296, ?_⟩
  unfold wrap32
  push_cast
  omega

theorem wrap32_eq_of_cast {u v : Int}
    (h : (u : ZMod 4294967296) = (v : ZMod 4294967296)) : wrap32 u = wrap32 v := by
  rw [ZMod.intCast_eq_intCast_iff_dvd_sub] at h
  obtain ⟨k, hk⟩ := h
  push_cast at hk
  unfold wrap32
  omega

theorem addAtIndex_fixed (w : Int → Int) (hi : ∀ d, w (w d) = w d) (res : List Int) (idx : Nat)
    (v : Int) (h : ∀ u ∈ res, w u = u) : ∀ u ∈ addAtIndex w res idx v, w u = u := by
  induction res generalizing idx with
  | nil => intro u hu; simp [addAtIndex] at hu
  | cons r rs ih =>
    cases idx with
    | zero =>
      intro u hu
      simp only [addAtIndex, List.mem_cons] at hu
      rcases hu with rfl | hu
      · exact hi _
      · exact h u (by simp [hu])
    | succ i =>
      intro u hu
      simp only [addAtIndex, List.mem_cons] at hu
      rcases hu with rfl | hu
      · exact h u (by simp)
      · exact ih i (fun t ht => h t (by simp [ht])) u hu

theorem baseInner_fixed (w : Int → Int) (hi : ∀ d, w (w d) = w d) (ai : Int) (bs : List Int)
    (pos : Nat) (res : List Int) (h : ∀ u ∈ res, w u = u) :
    ∀ u ∈ baseInner w ai bs pos res, w u = u := by
  induction bs generalizing pos res with
  | nil => exact h
  | cons bj bs ih =>
    rw [baseInner]
    exact ih _ _ (addAtIndex_fixed w hi res pos _ h)

theorem baseOuter_fixed (w : Int → Int) (hi : ∀ d, w (w d) = w d) (b rest : List Int)
    (i : Nat) (res : List Int) (h : ∀ u ∈ res, w u = u) :
    ∀ u ∈ baseOuter w b rest i res, w u = u := by
  induction rest generalizing i res with
  | nil => exact h
  | cons ai rest ih =>
    rw [baseOuter]
    exact ih _ _ (baseInner_fixed w hi ai b i res h)

theorem addAt_fixed (w : Int → Int) (hi : ∀ d, w (w d) = w d) (off : Nat) (res z : List Int)
    (h : ∀ u ∈ res, w u = u) : ∀ u ∈ addAt w off res z, w u = u := by
  induction off generalizing res with
  | zero =>
    induction res generalizing z with
    | nil => cases z <;> (intro u hu; simp [addAt] at hu)
    | cons a res ih =>
      cases z with
      | nil => simpa [addAt] using h
      | cons c z =>
        intro u hu
        simp only [addAt, List.mem_cons] at hu
        rcases hu with rfl | hu
        · exact hi _
        · exact ih z (fun t ht => h t (by simp [ht])) u hu
  | succ off ih =>
    cases res with
    | nil => intro u hu; simp [addAt] at hu
    | cons a res =>
      intro u hu
      simp only [addAt, List.mem_cons] at hu
      rcases hu with rfl | hu
      · exact h u (by simp)
      · exact ih res (fun t ht => h t (by simp [ht])) u hu

theorem replicate_zero_fixed (w : Int → Int) (hz : w 0 = 0) (n : Nat) :
    ∀ u ∈ List.replicate n (0 : Int), w u = u := by
  intro u hu
  rw [List.eq_of_mem_replicate hu]
  exact hz

/-- Every entry of the vector returned by `karatsubaFuel` is a wrapped value. -/
theorem karatsubaFuel_fixed (w : Int → Int) (hi : ∀ d, w (w d) = w d) (hz : w 0 = 0)
    (fuel : Nat) : ∀ (a b r : List Int), karatsubaFuel w fuel a b = some r →
      ∀ u ∈ r, w u = u := by
  induction fuel with
  | zero => intro a b r h; simp [karatsubaFuel] at h
  | succ fuel ih =>
    intro a b r h
    rw [karatsubaFuel] at h
    by_cases hlt : a.length < b.length
    · simp only [if_pos hlt] at h
      exact ih b a r h
    · simp only [if_neg hlt] at h
      by_cases h0 : a.length = 0 ∨ b.length = 0
      · simp only [if_pos h0, Option.some.injEq] at h
        subst h
        intro u hu
        cases hu
      · simp only [if_neg h0] at h
        by_cases h32 : a.length ≤ 32
        · simp only [if_pos h32, Option.some.injEq] at h
          subst h
          exact baseOuter_fixed w hi _ _ _ _ (replicate_zero_fixed w hz _)
        · simp only [if_neg h32] at h
          cases e1 : karatsubaFuel w fuel (a.take (a.length / 2))
              (b.take (min b.length (a.length / 2))) with
          | none => simp [e1] at h
          | some a1b1 =>
          cases e2 : karatsubaFuel w fuel (a.drop (a.length / 2))
              (b.drop (min b.length (a.length / 2))) with
          | none => simp [e1, e2] at h
          | some a2b2 =>
          cases e3 : karatsubaFuel w fuel
              (addExtend w (a.take (a.length / 2)) (a.drop (a.length / 2)))
              (addExtend w (b.take (min b.length (a.length / 2)))
                (b.drop (min b.length (a.length / 2)))) with
          | none => simp [e1, e2, e3] at h
          | some r0 =>
          simp only [e1, e2, e3, Option.some.injEq] at h
          subst h
          exact addAt_fixed w hi _ _ _ (addAt_fixed w hi _ _ _
            (addAt_fixed w hi _ _ _ (replicate_zero_fixed w hz _)))

/-- The 32-bit routine returns the same vector for `(a, b)` and `(b, a)`,
overflowed entries included: both are the wrapped coefficients of the same
product modulo `2^32`. -/
theorem karatsubaFuel_comm (f1 f2 : Nat) (a b r1 r2 : List Int)
    (h1 : karatsubaFuel wrap32 f1 a b = some r1)
    (h2 : karatsubaFuel wrap32 f2 b a = some r2) : r1 = r2 := by
  have hw : ∀ d, (Polynomial.C.comp (Int.castRingHom (ZMod 4294967296))) (wrap32 d)
      = (Polynomial.C.comp (Int.castRingHom (ZMod 4294967296))) d := by
    intro d
    simp only [RingHom.comp_apply, Int.coe_castRingHom, wrap32_cast]
  obtain ⟨p1, l1⟩ := karatsubaFuel_spec (Polynomial.X : Polynomial (ZMod 4294967296))
    (Polynomial.C.comp (Int.castRingHom (ZMod 4294967296))) wrap32 hw f1 a b r1 h1
  obtain ⟨p2, l2⟩ := karatsubaFuel_spec (Polynomial.X : Polynomial (ZMod 4294967296))
    (Polynomial.C.comp (Int.castRingHom (ZMod 4294967296))) wrap32 hw f2 b a r2 h2
  have n1 := karatsubaFuel_fixed wrap32 wrap32_idem wrap32_zero f1 a b r1 h1
  have n2 := karatsubaFuel_fixed wrap32 wrap32_idem wrap32_zero f2 b a r2 h2
  have hp : horner (Polynomial.X : Polynomial (ZMod 4294967296))
      (Polynomial.C.comp (Int.castRingHom (ZMod 4294967296))) r1
      = horner (Polynomial.X : Polynomial (ZMod 4294967296))
      (Polynomial.C.comp (Int.castRingHom (ZMod 4294967296))) r2 := by
    rw [p1, p2, mul_comm]
  apply List.ext_getElem (by rw [l1, l2, kSize_comm])
  intro p hp1 hp2
  have hc := congrArg (fun q => Polynomial.coeff q p) hp
  simp only [horner_coeff, Int.coe_castRingHom, List.getD_eq_getElem _ _ hp1,
    List.getD_eq_getElem _ _ hp2] at hc
  have hw12 := wrap32_eq_of_cast hc
  rw [n1 _ (List.getElem_mem hp1), n2 _ (List.getElem_mem hp2)] at hw12
  exact hw12

/-! ## Index safety of the recursive case -/

/-- The number of entries of what `karatsubaFuel` returns, for any wrap: read
the vectors in the trivial ring, where every wrap is invisible. -/
theorem karatsubaFuel_length (w : Int → Int) (fuel : Nat) (a b r : List Int)
    (h : karatsubaFuel w fuel a b = some r) : r.length = kSize a.length b.length :=
  (karatsubaFuel_spec (S := PUnit) PUnit.unit (Int.castRingHom PUnit) w
    (fun _ => Subsingleton.elim _ _) fuel a b r h).2

/-- Once the longer operand comes first, the recursive case stays inside its
vectors. -/
theorem recursiveCaseInBounds_of_le (w : Int → Int) (fuel : Nat) (a b : List Int)
    (hba : b.length ≤ a.length) (hb : b ≠ []) (hn : 32 < a.length) (hf : a.length ≤ fuel) :
    recursiveCaseInBounds w fuel a b := by
  have hm : 0 < b.length := List.length_pos.mpr hb
  obtain ⟨f, rfl⟩ : ∃ f, fuel = f + 1 := ⟨fuel - 1, by omega⟩
  obtain ⟨r1, e1⟩ := karatsubaFuel_returns w f (a.take (a.length / 2))
    (b.take (min b.length (a.length / 2)))
    (by simp only [List.length_take]; omega) (by simp only [List.length_take]; omega)
  obtain ⟨r2, e2⟩ := karatsubaFuel_returns w f (a.drop (a.length / 2))
    (b.drop (min b.length (a.length / 2)))
    (by simp only [List.length_drop]; omega) (by simp only [List.length_drop]; omega)
  obtain ⟨r3, e3⟩ := karatsubaFuel_returns w f
    (addExtend w (a.take (a.length / 2)) (a.drop (a.length / 2)))
    (addExtend w (b.take (min b.length (a.length / 2)))
      (b.drop (min b.length (a.length / 2))))
    (by simp only [addExtend_length, List.length_take, List.length_drop]; omega)
    (by simp only [addExtend_length, List.length_take, List.length_drop]; omega)
  have l1 := karatsubaFuel_length w _ _ _ _ e1
  have l2 := karatsubaFuel_length w _ _ _ _ e2
  have l3 := karatsubaFuel_length w _ _ _ _ e3
  simp only [List.length_take, List.length_drop, addExtend_length] at l1 l2 l3
  have ea : min (a.length / 2) a.length = a.length / 2 := by omega
  have eb : min (min b.length (a.length / 2)) b.length = min b.length (a.length / 2) := by
    omega
  have ec : max (a.length / 2) (a.length - a.length / 2) = a.length - a.length / 2 := by
    omega
  rw [ea, eb, kSize_of_le (by omega)] at l1
  rw [kSize_of_le (by omega)] at l2
  rw [ea, eb, ec, kSize_of_le (by omega)] at l3
  obtain ⟨q1, q2, q3, q4⟩ := kLen_recursive_case (n := a.length) (m := b.length)
    hm hba hn
  exact ⟨by omega, by omega, r1, r2, r3, e1, e2, e3, by omega, by omega, by omega, by omega⟩

/-! ## Claims -/

/-- C3: for valid operands of every sign combination `a + b` returns (within
three nested operator calls) and the result denotes `value a + value b`; the
sum of "-50" and "30" renders as "-20". -/
theorem add_value :
    (∀ a b : BigInt, Valid a → Valid b → ∀ fuel, 3 ≤ fuel →
      ∃ r, add fuel a b = some r ∧ value r = value a + value b) ∧
    ((fromString "-50".toList).bind fun a =>
      (fromString "30".toList).bind fun b =>
        (add 3 a b).bind render) = some "-20".toList := by
  refine ⟨fun a b ha hb fuel hf => ?_, by decide⟩
  obtain ⟨k, rfl⟩ := Nat.exists_eq_add_of_le hf
  obtain ⟨r, r1, _, r3⟩ := add_spec ha hb k
  exact ⟨r, by rw [Nat.add_comm]; exact r1, r3⟩

theorem add_value_witness :
    ∃ r, add 3 { digits := [9999, 1], negative := true } { digits := [5], negative := false }
        = some r ∧
      value r = value { digits := [9999, 1], negative := true }
        + value { digits := [5], negative := false } :=
  add_value.1 _ _ (by decide) (by decide) 3 (by decide)

/-- C4: for valid operands `a - b` returns exactly the `BigInt` that
`a + (-b)` returns, limbs and sign flag alike; the difference of "-50" and "30"
renders as "-80". -/
theorem sub_eq_add_neg :
    (∀ a b : BigInt, Valid a → Valid b → ∀ fuel, 4 ≤ fuel →
      ∃ r, sub fuel a b = some r ∧ add fuel a (neg b) = some r) ∧
    ((fromString "-50".toList).bind fun a =>
      (fromString "30".toList).bind fun b =>
        (sub 4 a b).bind render) = some "-80".toList := by
  refine ⟨fun a b ha hb fuel hf => ?_, by decide⟩
  obtain ⟨k, rfl⟩ := Nat.exists_eq_add_of_le hf
  obtain ⟨r, r1, r2, r3⟩ := sub_spec ha hb k
  obtain ⟨s, s1, s2, s3⟩ := add_spec ha (neg_valid hb) (k + 1)
  have hrs : r = s := valid_ext r2 s2 (by rw [r3, s3, neg_value]; ring)
  subst hrs
  refine ⟨r, by rw [Nat.add_comm]; exact r1, ?_⟩
  rw [show 4 + k = k + 1 + 3 by omega]
  exact s1

theorem sub_eq_add_neg_witness :
    ∃ r, sub 4 { digits := [5, 7], negative := true } { digits := [0], negative := false }
        = some r ∧
      add 4 { digits := [5, 7], negative := true } (neg { digits := [0], negative := false })
        = some r :=
  sub_eq_add_neg.1 _ _ (by decide) (by decide) 4 (by decide)

/-- C10: for valid operands each of `-a`, `a + b` and `a - b` is again valid:
non-empty limbs, every limb in `[0, 10000)`, no most significant zero limb
unless the value is the single limb `0`, and zero never flagged negative. -/
theorem additive_results_valid (a b : BigInt) (ha : Valid a) (hb : Valid b) :
    Valid (neg a) ∧
    (∀ fuel, 3 ≤ fuel → ∃ r, add fuel a b = some r ∧ Valid r) ∧
    (∀ fuel, 4 ≤ fuel → ∃ r, sub fuel a b = some r ∧ Valid r) := by
  refine ⟨neg_valid ha, fun fuel hf => ?_, fun fuel hf => ?_⟩
  · obtain ⟨k, rfl⟩ := Nat.exists_eq_add_of_le hf
    obtain ⟨r, r1, r2, _⟩ := add_spec ha hb k
    exact ⟨r, by rw [Nat.add_comm]; exact r1, r2⟩
  · obtain ⟨k, rfl⟩ := Nat.exists_eq_add_of_le hf
    obtain ⟨r, r1, r2, _⟩ := sub_spec ha hb k
    exact ⟨r, by rw [Nat.add_comm]; exact r1, r2⟩

theorem additive_results_valid_witness :
    Valid (neg { digits := [0, 1], negative := true }) ∧
    (∀ fuel, 3 ≤ fuel →
      ∃ r, add fuel { digits := [0, 1], negative := true }
        { digits := [9999], negative := false } = some r ∧ Valid r) ∧
    (∀ fuel, 4 ≤ fuel →
      ∃ r, sub fuel { digits := [0, 1], negative := true }
        { digits := [9999], negative := false } = some r ∧ Valid r) :=
  additive_results_valid _ _ (by decide) (by decide)

/-- C5 (the code departs from it): `operator<` compares limb counts and limbs
only and never reads the sign flags, so `BigInt(-5) < BigInt(3)` is `false`
although both operands are valid and `-5 < 3`. -/
theorem lt_ignores_sign :
    Valid (fromLongLong (-5)) ∧ Valid (fromLongLong 3) ∧
    value (fromLongLong (-5)) = -5 ∧ value (fromLongLong 3) = 3 ∧
    lt (fromLongLong (-5)) (fromLongLong 3) = false ∧
    lt (fromLongLong 3) (fromLongLong (-5)) = true := by
  decide

/-- C9 (the code departs from it): at the most negative 64-bit integer the
negation wraps back to the same number, the single loop iteration stores the
negative remainder `-5808` and the loop test `num > 0` fails at once, so the
limb sequence is neither in `[0, 10000)` nor the base-10000 expansion of
`|n|`, which has five limbs. -/
theorem fromLongLong_most_negative :
    fromLongLong (-9223372036854775808) = { digits := [-5808], negative := true } ∧
    ¬ limbsOk (fromLongLong (-9223372036854775808)).digits ∧
    mag (fromLongLong (-9223372036854775808)).digits ≠ 9223372036854775808 ∧
    (fromLongLong (-9223372036854775807)).digits = [5807, 5477, 368, 3372, 922] := by
  decide

/-- C2 (the code departs from it): `operator*` never assigns the sign flag of
its default-constructed result, so the product of "-50" and "30" is the
non-negative 1500 and renders as "1500", not "-1500". -/
theorem mul_drops_sign :
    ((fromString "-50".toList).bind fun a =>
      (fromString "30".toList).bind fun b => mul a b)
      = some { digits := [1500], negative := false } ∧
    ((fromString "-50".toList).bind fun a =>
      (fromString "30".toList).bind fun b => (mul a b).bind render)
      = some "1500".toList := by
  decide

set_option maxRecDepth 100000 in
/-- C1 (the code departs from it): with two valid operands of 22 limbs `9999`
the `int` accumulator `res[21]` of the base case receives
`22 * 9999 * 9999 = 2199560022`, beyond the largest `int`; the wrapped value is
negative, and the product comes out with the limb `-7296` and a magnitude
different from `|a| * |b|`. -/
theorem mul_overflows_at_22_limbs :
    Valid { digits := List.replicate 22 9999, negative := false } ∧
    mul { digits := List.replicate 22 9999, negative := false }
        { digits := List.replicate 22 9999, negative := false }
      = some { digits := [1] ++ List.replicate 20 0 ++ [-7296, 502, 9957]
                  ++ List.replicate 20 9999, negative := false } ∧
    mag ([1] ++ List.replicate 20 0 ++ [-7296, 502, 9957] ++ List.replicate 20 9999)
      ≠ mag (List.replicate 22 9999) * mag (List.replicate 22 9999) := by
  decide

/-- C6: for a valid non-negative `a` and a positive `int` divisor `d`, `a / d`
is the valid (canonical, normalised) representation of the floor quotient, so
`value a - d < value (a / d) * d ≤ value a`; `123456789123456789 / 1000`
renders as the dividend without its last three decimal digits. -/
theorem div_floor :
    (∀ (a : BigInt) (d : Int), Valid a → a.negative = false → 0 < d → d ≤ 2147483647 →
      ∃ r, div a d = some r ∧ Valid r ∧ value r = value a / d ∧
        value a - d < value r * d ∧ value r * d ≤ value a) ∧
    ((fromString "123456789123456789".toList).bind fun a => (div a 1000).bind render)
      = some "123456789123456".toList := by
  refine ⟨fun a d ha hn hd0 hd1 => ?_, by decide⟩
  obtain ⟨r, r1, r2, r3⟩ := div_spec ha hn hd0 hd1
  refine ⟨r, r1, r2, r3, ?_, ?_⟩
  · rw [r3]
    have := Int.lt_ediv_add_one_mul_self (value a) hd0
    linarith
  · rw [r3]
    exact Int.ediv_mul_le _ (by omega)

theorem div_floor_witness :
    ∃ r, div { digits := [6789, 2345, 1], negative := false } 7 = some r ∧ Valid r ∧
      value r = value { digits := [6789, 2345, 1], negative := false } / 7 ∧
      value { digits := [6789, 2345, 1], negative := false } - 7 < value r * 7 ∧
      value r * 7 ≤ value { digits := [6789, 2345, 1], negative := false } :=
  div_floor.1 _ 7 (by decide) (by decide) (by decide) (by decide)

/-- C8: for an optional `-` followed by one or more decimal digits (leading
zeros and "-0" included) the string constructor returns a value that satisfies
the four invariants and denotes the integer written; its limbs are the
4-character groups taken from the least significant end with the most
significant zero limbs stripped, and the sign is cleared when the value is
zero. -/
theorem fromString_spec :
    (∀ (ds : List Char) (isNeg : Bool), ds ≠ [] → allDigits ds →
      ∃ x, fromString ((if isNeg then ['-'] else []) ++ ds) = some x ∧ Valid x ∧
        value x = (if isNeg then - (decVal ds : Int) else (decVal ds : Int)) ∧
        (∃ k, groupLimbs ds = x.digits ++ List.replicate k 0) ∧
        x.negative = (isNeg && decide (decVal ds ≠ 0))) ∧
    fromString "0005".toList = some { digits := [5], negative := false } ∧
    fromString "0000000".toList = some { digits := [0], negative := false } ∧
    fromString "-0".toList = some { digits := [0], negative := false } ∧
    fromString "-00012345678".toList = some { digits := [5678, 1234], negative := true } := by
  refine ⟨fun ds isNeg hne hd => ?_, by decide, by decide, by decide, by decide⟩
  have hok := limbsOk_groupLimbs hd
  have hnn := groupLimbs_ne_nil hne
  refine ⟨_, fromString_digits ds isNeg hne hd, removeLeadingZeros_valid hnn hok, ?_, ?_, ?_⟩
  · rw [removeLeadingZeros_value]
    simp only [value, mag_groupLimbs]
  · exact removeLeadingZeros_zeros { digits := groupLimbs ds, negative := isNeg }
  · rw [removeLeadingZeros_negative hnn hok]
    simp only [mag_groupLimbs]
    congr 2
    simp

theorem fromString_spec_witness :
    ∃ x, fromString ((if true then ['-'] else []) ++ "000012345".toList) = some x ∧ Valid x ∧
      value x = (if true then - (decVal "000012345".toList : Int)
        else (decVal "000012345".toList : Int)) ∧
      (∃ k, groupLimbs "000012345".toList = x.digits ++ List.replicate k 0) ∧
      x.negative = (true && decide (decVal "000012345".toList ≠ 0)) :=
  fromString_spec.1 "000012345".toList true (by decide) (by decide)

/-- C7: for decimal text `-?[0-9]+` without superfluous leading zeros (or
exactly "0"; a leading `-` only on a number that is not zero), constructing a
`BigInt` from the text and writing it with `operator<<` gives the text back. -/
theorem render_fromString (s : List Char) (h : canonicalText s) :
    (fromString s).bind render = some s := by
  have key : ∀ (ds : List Char) (isNeg : Bool), canonicalRun ds →
      (isNeg = true → ds ≠ ['0']) →
      (fromString ((if isNeg then ['-'] else []) ++ ds)).bind render
        = some ((if isNeg then ['-'] else []) ++ ds) := by
    intro ds isNeg hc hs
    have hv := groupLimbs_valid hc isNeg hs
    rw [fromString_digits ds isNeg hc.1 hc.2.1, removeLeadingZeros_of_valid hv]
    simp only [Option.some_bind]
    rw [render_eq hv.1, renderLimbs_groupLimbs hc]
    cases isNeg with
    | false => simp
    | true =>
      have hne : groupLimbs ds ≠ [0] := by
        intro hz
        have := hv.2.2.2 hz
        simp at this
      simp [hne]
  rcases h with h | ⟨ds, rfl, hc, hz⟩
  · simpa using key s false h (by simp)
  · simpa using key ds true hc (fun _ => hz)

theorem render_fromString_witness :
    (fromString "-1000200030004".toList).bind render = some "-1000200030004".toList :=
  render_fromString "-1000200030004".toList (Or.inr ⟨_, rfl, by decide, by decide⟩)

/-- C16: for a valid `a`, `-a` has the limbs of `a`; its sign flag is flipped
when `a` is not zero and stays `false` when `a` is zero; `value (-a)` is
`- value a`, and `-(-a)` is `a`. -/
theorem neg_spec (a : BigInt) (ha : Valid a) :
    (neg a).digits = a.digits ∧
    (value a ≠ 0 → (neg a).negative = !a.negative) ∧
    (value a = 0 → (neg a).negative = false) ∧
    value (neg a) = - value a ∧
    neg (neg a) = a := by
  refine ⟨neg_digits a, fun h => ?_, fun h => ?_, neg_value a, neg_neg_of_valid ha⟩
  · have h0 : a.digits ≠ [0] := fun h0 => h ((valid_value_zero_iff ha).mpr h0)
    unfold neg
    simp [h0]
  · have h0 := (valid_value_zero_iff ha).mp h
    have := (neg_valid ha).2.2.2
    exact this (by rw [neg_digits]; exact h0)

theorem neg_spec_witness :
    (neg { digits := [7, 3], negative := false }).digits
      = ({ digits := [7, 3], negative := false } : BigInt).digits ∧
    (value { digits := [7, 3], negative := false } ≠ 0 →
      (neg { digits := [7, 3], negative := false }).negative
        = !({ digits := [7, 3], negative := false } : BigInt).negative) ∧
    (value { digits := [7, 3], negative := false } = 0 →
      (neg { digits := [7, 3], negative := false }).negative = false) ∧
    value (neg { digits := [7, 3], negative := false })
      = - value { digits := [7, 3], negative := false } ∧
    neg (neg { digits := [7, 3], negative := false })
      = { digits := [7, 3], negative := false } :=
  neg_spec { digits := [7, 3], negative := false } (by decide)

/-- C14: for every valid `a`, positive, negative or zero, `a + (-a)` is the
canonical zero (the single limb `0`, sign flag `false`), which renders as "0". -/
theorem add_neg_self (a : BigInt) (ha : Valid a) (fuel : Nat) (hf : 3 ≤ fuel) :
    add fuel a (neg a) = some { digits := [0], negative := false } ∧
    (add fuel a (neg a)).bind render = some "0".toList := by
  obtain ⟨k, rfl⟩ := Nat.exists_eq_add_of_le hf
  obtain ⟨r, r1, r2, r3⟩ := add_spec ha (neg_valid ha) k
  have hr : r = { digits := [0], negative := false } :=
    valid_zero_of_value r2 (by rw [r3, neg_value]; ring)
  subst hr
  rw [Nat.add_comm] at r1
  rw [r1]
  exact ⟨rfl, by decide⟩

theorem add_neg_self_witness :
    add 3 { digits := [1, 2, 3], negative := true }
        (neg { digits := [1, 2, 3], negative := true })
      = some { digits := [0], negative := false } ∧
    (add 3 { digits := [1, 2, 3], negative := true }
        (neg { digits := [1, 2, 3], negative := true })).bind render = some "0".toList :=
  add_neg_self { digits := [1, 2, 3], negative := true } (by decide) 3 (by decide)

/-- C20: for a valid `a` and a positive `int` divisor `d`, `a / d` has its sign
flag `false` and is the very value that `(-a) / d` is, the valid representation
of `floor(|a| / d)`; so for a negative `a` with `|a| ≥ d` the quotient is
positive: `-123456 / 1000` renders as "123". -/
theorem div_ignores_sign :
    (∀ (a : BigInt) (d : Int), Valid a → 0 < d → d ≤ 2147483647 →
      ∃ r, div a d = some r ∧ div (neg a) d = some r ∧ r.negative = false ∧ Valid r ∧
        mag r.digits = mag a.digits / d ∧ (d ≤ mag a.digits → 0 < value r)) ∧
    ((fromString "-123456".toList).bind fun a => (div a 1000).bind render)
      = some "123".toList := by
  refine ⟨fun a d ha hd0 hd1 => ?_, by decide⟩
  obtain ⟨r, r1, r2, r3, r4⟩ := div_mag_spec ha hd0 hd1
  refine ⟨r, r1, ?_, r3, r2, r4, fun hle => ?_⟩
  · rw [div_congr (neg_digits a) d]; exact r1
  · have : 1 ≤ mag a.digits / d := (Int.le_ediv_iff_mul_le hd0).mpr (by omega)
    simp only [value, r3, Bool.false_eq_true, if_false, r4]
    omega

theorem div_ignores_sign_witness :
    ∃ r, div { digits := [3456, 12], negative := true } 1000 = some r ∧
      div (neg { digits := [3456, 12], negative := true }) 1000 = some r ∧
      r.negative = false ∧ Valid r ∧
      mag r.digits = mag ({ digits := [3456, 12], negative := true } : BigInt).digits / 1000 ∧
      (1000 ≤ mag ({ digits := [3456, 12], negative := true } : BigInt).digits → 0 < value r) :=
  div_ignores_sign.1 { digits := [3456, 12], negative := true } 1000
    (by decide) (by decide) (by decide)

/-- C11 (the code departs from it): with a negative divisor every quotient
limb `current / b` is negative or zero, so `123456789123456789 / -1000` is
returned with the limbs `-3456, -8912, -4567, -123` and the sign flag `false`,
which is not a valid value. -/
theorem div_negative_divisor :
    ((fromString "123456789123456789".toList).bind fun a => div a (-1000))
      = some { digits := [-3456, -8912, -4567, -123], negative := false } ∧
    ¬ Valid { digits := [-3456, -8912, -4567, -123], negative := false } ∧
    ((fromString "123456789123456789".toList).bind fun a => (div a (-1000)).bind render)
      = some "-123-4567-8912-3456".toList := by
  decide

/-- C13 (the code departs from it): for the empty string and for "-" the loop
of the string constructor never runs and `removeLeadingZeros` leaves the empty
limb sequence as it is, so a `BigInt` without limbs is returned (flagged
negative for "-"); it is not valid, and `operator<<` reads `digits.back()` of
an empty vector. -/
theorem fromString_empty_run :
    fromString [] = some { digits := [], negative := false } ∧
    fromString ['-'] = some { digits := [], negative := true } ∧
    ¬ Valid { digits := [], negative := false } ∧
    ¬ Valid { digits := [], negative := true } ∧
    (fromString []).bind render = none ∧
    fromLongLong 0 = { digits := [0], negative := false } := by
  decide

set_option maxRecDepth 100000 in
/-- C12 (the code departs from it): for two valid operands of 22 limbs `9999`
the exact sum that the base case accumulates in `res[21]` is
`22 * 9999 * 9999 = 2199560022`, above the largest 32-bit `int` 2147483647;
the `int` vector of the program therefore holds a different, wrapped value
there. -/
theorem karatsuba_accumulator_overflows :
    Valid { digits := List.replicate 22 9999, negative := false } ∧
    (karatsubaFuel id 46 (List.replicate 22 9999) (List.replicate 22 9999)).map
        (fun raw => raw.getD 21 0) = some 2199560022 ∧
    (2147483647 : Int) < 2199560022 ∧
    (karatsubaMultiply (List.replicate 22 9999) (List.replicate 22 9999)).map
        (fun raw => raw.getD 21 0) = some (-2095407274) := by
  decide

/-- C18, the bound as stated fails: with the outer call and two nested calls
allowed, `(-5) - 0` does not return.  The operands differ in sign, so
`operator-` calls `a + (-b)`; `-b` is still the non-negative zero, so
`operator+` calls `(-b) - (-a)`, i.e. `0 - 5`, which swaps and calls `5 - 0`:
three nested calls. -/
theorem sub_needs_three_nested_calls :
    Valid { digits := [5], negative := true } ∧
    Valid { digits := [0], negative := false } ∧
    sub 3 { digits := [5], negative := true } { digits := [0], negative := false } = none ∧
    sub 4 { digits := [5], negative := true } { digits := [0], negative := false }
      = some { digits := [5], negative := true } := by
  decide

/-- C18, amended: for valid operands `a + b` and `a - b` return; `a + b`
triggers at most two nested operator calls, and so does `a - b` unless `a` is
negative and `b` is zero, where it triggers three.  A depth bound of `n + 1`
stands for the outer call and `n` nested ones. -/
theorem add_sub_depth (a b : BigInt) (ha : Valid a) (hb : Valid b) :
    (∀ fuel, 3 ≤ fuel → ∃ r, add fuel a b = some r) ∧
    (∀ fuel, 4 ≤ fuel → ∃ r, sub fuel a b = some r) ∧
    (¬ (a.negative = true ∧ b.digits = [0]) → ∀ fuel, 3 ≤ fuel → ∃ r, sub fuel a b = some r) := by
  refine ⟨fun fuel hf => ?_, fun fuel hf => ?_, fun hne fuel hf => ?_⟩
  · obtain ⟨k, rfl⟩ := Nat.exists_eq_add_of_le hf
    obtain ⟨r, r1, _, _⟩ := add_spec ha hb k
    exact ⟨r, by rw [Nat.add_comm]; exact r1⟩
  · obtain ⟨k, rfl⟩ := Nat.exists_eq_add_of_le hf
    obtain ⟨r, r1, _, _⟩ := sub_spec ha hb k
    exact ⟨r, by rw [Nat.add_comm]; exact r1⟩
  · obtain ⟨k, rfl⟩ := Nat.exists_eq_add_of_le hf
    rw [show 3 + k = (k + 1) + 2 by omega]
    by_cases hs : a.negative = b.negative
    · obtain ⟨r, r1, _, _⟩ := sub_same_sign ha hb hs (k + 1)
      exact ⟨r, r1⟩
    · rw [show k + 1 + 2 = (k + 2) + 1 by omega, sub, if_pos hs]
      have hb0 : b.digits ≠ [0] := by
        intro h0
        have hbn := hb.2.2.2 h0
        apply hne
        refine ⟨?_, h0⟩
        cases hn : a.negative
        · rw [hn, hbn] at hs; exact absurd rfl hs
        · rfl
      have hflip : (neg b).negative = !b.negative := by unfold neg; simp [hb0]
      have hs2 : a.negative = (neg b).negative := by
        rw [hflip]
        cases hn : a.negative <;> cases hm : b.negative <;> simp_all
      rw [show k + 2 = (k + 1) + 1 by omega]
      exact add_same_sign_returns hs2 (k + 1)

theorem add_sub_depth_witness :
    (∀ fuel, 3 ≤ fuel →
      ∃ r, add fuel { digits := [5], negative := true } { digits := [7], negative := false }
        = some r) ∧
    (∀ fuel, 4 ≤ fuel →
      ∃ r, sub fuel { digits := [5], negative := true } { digits := [7], negative := false }
        = some r) ∧
    (¬ (({ digits := [5], negative := true } : BigInt).negative = true ∧
        ({ digits := [7], negative := false } : BigInt).digits = [0]) →
      ∀ fuel, 3 ≤ fuel →
      ∃ r, sub fuel { digits := [5], negative := true } { digits := [7], negative := false }
        = some r) :=
  add_sub_depth _ _ (by decide) (by decide)

/-- C17: over exact integers (no wrap) and for operands of any lengths and
any entries, `karatsubaMultiply` returns a vector whose entry at every position
`p` is the schoolbook sum of `a[i] * b[j]` over `i + j = p` (positions outside
the vector counting as `0`); every position beyond `len a + len b - 2` holds
`0`; non-empty operands give at least `len a + len b` entries, and an empty
operand gives the empty vector. -/
theorem karatsuba_exact_eq_schoolbook (a b : List Int) (fuel : Nat)
    (ha : a.length + 2 ≤ fuel) (hb : b.length + 2 ≤ fuel) :
    ∃ r, karatsubaFuel id fuel a b = some r ∧
      (∀ p, r.getD p 0 = convAt a b p) ∧
      (∀ p, a.length + b.length ≤ p + 1 → r.getD p 0 = 0) ∧
      (a ≠ [] → b ≠ [] → a.length + b.length ≤ r.length) ∧
      (a = [] ∨ b = [] → r = []) := by
  obtain ⟨r, hr⟩ := karatsubaFuel_returns_any id fuel a b ha hb
  obtain ⟨e1, e2⟩ := karatsubaFuel_exact fuel a b r hr
  refine ⟨r, hr, e1, fun p hp => ?_, fun hna hnb => ?_, fun h0 => ?_⟩
  · rw [e1, convAt_eq_zero a b p hp]
  · have h1 : 0 < a.length := List.length_pos.mpr hna
    have h2 : 0 < b.length := List.length_pos.mpr hnb
    rw [e2]
    unfold kSize
    split
    · have := (kLen_bounds b.length a.length h1 (by omega)).1; omega
    · have := (kLen_bounds a.length b.length h2 (by omega)).1; omega
  · apply List.length_eq_zero.mp
    rw [e2]
    unfold kSize
    rcases h0 with h0 | h0 <;> subst h0 <;> split <;> exact kLen_zero (by simp)

theorem karatsuba_exact_eq_schoolbook_witness :
    ∃ r, karatsubaFuel id 42 (List.replicate 40 (-3)) (List.replicate 35 20000) = some r ∧
      (∀ p, r.getD p 0 = convAt (List.replicate 40 (-3)) (List.replicate 35 20000) p) ∧
      (∀ p, (List.replicate 40 (-3 : Int)).length + (List.replicate 35 (20000 : Int)).length
        ≤ p + 1 → r.getD p 0 = 0) ∧
      (List.replicate 40 (-3 : Int) ≠ [] → List.replicate 35 (20000 : Int) ≠ [] →
        (List.replicate 40 (-3 : Int)).length + (List.replicate 35 (20000 : Int)).length
          ≤ r.length) ∧
      (List.replicate 40 (-3 : Int) = [] ∨ List.replicate 35 (20000 : Int) = [] → r = []) :=
  karatsuba_exact_eq_schoolbook (List.replicate 40 (-3)) (List.replicate 35 20000) 42
    (by decide) (by decide)

/-- C15: `a * b` and `b * a` return the same `BigInt`, limbs and sign flag
alike, for all operands: also for operands of equal limb count above the
32-limb cutoff, where `karatsubaMultiply` does not swap its arguments, and
also where the `int` accumulators overflow. -/
theorem mul_comm_operands (a b : BigInt) :
    mul a b = mul b a ∧ ∃ r, mul a b = some r := by
  obtain ⟨r1, h1⟩ := karatsubaMultiply_returns a.digits b.digits
  obtain ⟨r2, h2⟩ := karatsubaMultiply_returns b.digits a.digits
  have h12 : r1 = r2 := karatsubaFuel_comm _ _ _ _ _ _ h1 h2
  subst h12
  refine ⟨?_, mul_returns a b⟩
  unfold mul
  rw [h1, h2]

/-- C19: for operands of any lengths and any wrap, with `hi` the longer
operand (the first one after the swap at the head of `karatsubaMultiply`) and
`lo` the other: in the base case every index `i + j` lies inside `res`, which
has `len hi + len lo` entries; in the recursive case the split points lie
within the operands, `len a1b1 ≤ len r`, `len a2b2 ≤ len r`,
`len r + k ≤ len res` and `len a2b2 + 2k ≤ len res`, where
`len res = len a1b1 + 2 (n - k)`. -/
theorem karatsuba_index_safe (w : Int → Int) (a b : List Int) (fuel : Nat)
    (ha : a.length ≤ fuel) (hb : b.length ≤ fuel) :
    (∀ i j, i < (if a.length < b.length then b else a).length →
      j < (if a.length < b.length then a else b).length →
      i + j < (List.replicate ((if a.length < b.length then b else a).length
        + (if a.length < b.length then a else b).length) (0 : Int)).length) ∧
    (32 < (if a.length < b.length then b else a).length →
      (if a.length < b.length then a else b) ≠ [] →
      recursiveCaseInBounds w fuel (if a.length < b.length then b else a)
        (if a.length < b.length then a else b)) := by
  refine ⟨fun i j hi hj => by rw [List.length_replicate]; omega, fun hn hne => ?_⟩
  by_cases h : a.length < b.length
  · simp only [if_pos h] at hn hne ⊢
    exact recursiveCaseInBounds_of_le w fuel b a (by omega) hne hn hb
  · simp only [if_neg h] at hn hne ⊢
    exact recursiveCaseInBounds_of_le w fuel a b (by omega) hne hn ha

theorem karatsuba_index_safe_witness :
    (∀ i j,
      i < (if (List.replicate 20 (7 : Int)).length < (List.replicate 33 (9999 : Int)).length
        then List.replicate 33 (9999 : Int) else List.replicate 20 (7 : Int)).length →
      j < (if (List.replicate 20 (7 : Int)).length < (List.replicate 33 (9999 : Int)).length
        then List.replicate 20 (7 : Int) else List.replicate 33 (9999 : Int)).length →
      i + j < (List.replicate
        ((if (List.replicate 20 (7 : Int)).length < (List.replicate 33 (9999 : Int)).length
          then List.replicate 33 (9999 : Int) else List.replicate 20 (7 : Int)).length
        + (if (List.replicate 20 (7 : Int)).length < (List.replicate 33 (9999 : Int)).length
          then List.replicate 20 (7 : Int) else List.replicate 33 (9999 : Int)).length)
        (0 : Int)).length) ∧
    (32 < (if (List.replicate 20 (7 : Int)).length < (List.replicate 33 (9999 : Int)).length
        then List.replicate 33 (9999 : Int) else List.replicate 20 (7 : Int)).length →
      (if (List.replicate 20 (7 : Int)).length < (List.replicate 33 (9999 : Int)).length
        then List.replicate 20 (7 : Int) else List.replicate 33 (9999 : Int)) ≠ [] →
      recursiveCaseInBounds wrap32 33
        (if (List.replicate 20 (7 : Int)).length < (List.replicate 33 (9999 : Int)).length
          then List.replicate 33 (9999 : Int) else List.replicate 20 (7 : Int))
        (if (List.replicate 20 (7 : Int)).length < (List.replicate 33 (9999 : Int)).length
          then List.replicate 20 (7 : Int) else List.replicate 33 (9999 : Int))) :=
  karatsuba_index_safe wrap32 (List.replicate 20 7) (List.replicate 33 9999) 33
    (by decide) (by decide)

end BigIntCpp
